import Mathlib

/-!
Verification of the SSTFLASH flash-programming tool (src/SSTFLASH.C) against
its natural-language specification.

The program drives an SST39SF0x0 NOR flash mapped into the PC's low 1 MiB
address space.  We embed the C source shallowly:

* machine bytes and addresses are `Nat` (with `% 65536` wherever a 16-bit
  `unsigned short` wraps in the C code);
* the memory-mapped device is an abstract state machine `Dev σ`: a read may
  advance the device state (the SST part answers erase/program polls with
  time-varying data) and a write transforms it;
* every function that touches the bus additionally returns the list of bus
  `Event`s it produced (reads, writes, and the `cli`/`sti` interrupt flag
  changes), so that trace properties — "no unlock sequence was issued",
  "every disable is paired with an enable" — are statable;
* `memcmp(dest, block, 4096)` is modelled as 4096 sequential byte reads
  followed by the comparison; only its boolean result and the absence of
  write events matter to any theorem below;
* loops are written with an explicit iteration count that matches the C
  control flow (the counts are justified in each doc string).
-/

set_option maxHeartbeats 1000000
set_option maxRecDepth 1024

namespace SSTFlash

/-- Observable bus events: byte reads and writes issued through `MK_FP`
windows, and the interrupt-flag instructions of `DisableInterrupts` /
`EnableInterrupts` (`asm cli` / `asm sti`). -/
inductive Event where
  | rd (addr val : Nat)
  | wr (addr val : Nat)
  | cli
  | sti
deriving DecidableEq, Repr

/-- A memory-mapped device with state type `σ`.  `read` returns the byte on
the bus and may advance the state; `write` transforms the state. -/
structure Dev (σ : Type) where
  read : σ → Nat → Nat × σ
  write : σ → Nat → Nat → σ

/-- A device whose reads are pure lookups in the byte map `m` and whose
writes are ignored (reads never disturb it). -/
def pureDev (m : Nat → Nat) : Dev Unit :=
  ⟨fun s a => (m a, s), fun s _ _ => s⟩

/-- `true` for read events. -/
def Event.isRd : Event → Bool
  | .rd _ _ => true
  | _ => false

/-- `true` for write events. -/
def Event.isWr : Event → Bool
  | .wr _ _ => true
  | _ => false

/-- `true` for the interrupt-flag events `cli` and `sti`. -/
def Event.isInt : Event → Bool
  | .cli => true
  | .sti => true
  | _ => false

/-- Replay of the interrupt flag over a trace: `true` = interrupts enabled.
The flag starts enabled, `cli` clears it, `sti` sets it. -/
def intEnabledAfter (tr : List Event) : Bool :=
  tr.foldl (fun st e => match e with
    | Event.cli => false
    | Event.sti => true
    | _ => st) true

/-- Number of do-while iterations of `WaitForValue` (SSTFLASH.C 303-319).
The loop is `do { ... } while (--timeoutCount);` with `timeoutCount` an
`unsigned short`: the body always runs once, and `--timeoutCount` wraps
from 0 to 0xFFFF, so the body runs `timeoutCount` times when
`1 ≤ timeoutCount % 0x10000` and `0x10000` times when
`timeoutCount % 0x10000 = 0`. -/
def wfvIterations (timeoutCount : Nat) : Nat :=
  if timeoutCount % 65536 = 0 then 65536 else timeoutCount % 65536

/-- The polling loop body of `WaitForValue`: up to `n` reads of `addr`,
returning `true` as soon as a read returns `value`. -/
def waitGo {σ : Type} (d : Dev σ) (addr value : Nat) : Nat → σ → Bool × σ × List Event
  | 0, s => (false, s, [])
  | n + 1, s =>
    let p := d.read s addr
    if p.1 = value then (true, p.2, [Event.rd addr p.1])
    else
      let q := waitGo d addr value n p.2
      (q.1, q.2.1, Event.rd addr p.1 :: q.2.2)

/-- `WaitForValue` (SSTFLASH.C 303-319): poll `*addr` until it reads as
`value`; `true` on a match, `false` on timeout.  The iteration count is
derived from the C do-while as documented at `wfvIterations`. -/
def WaitForValue {σ : Type} (d : Dev σ) (s : σ) (addr value timeoutCount : Nat) :
    Bool × σ × List Event :=
  waitGo d addr value (wfvIterations timeoutCount) s

/-- `CalculateSequenceSeg` (SSTFLASH.C 367-388).  `destAddr = destSeg << 4`
is floored to a 32 KiB boundary (`& ~0x7FFF` on a non-negative `long` is
subtraction of the remainder); if the floor is strictly below `destAddr`
and rounding up by one window leaves two windows inside
`[destAddr, destAddr + flashLen)`, one window size is added back.  The
final `(short)(seqAddr >> 4)` stored into an `unsigned short` is a
reduction modulo 0x10000. -/
def CalculateSequenceSeg (destSeg : Nat) (flashLen : Nat) : Nat :=
  let sequenceWindowSize := 32 * 1024
  let destAddr := destSeg * 16
  let seqAddr := destAddr - destAddr % sequenceWindowSize
  let seqAddr :=
    if seqAddr < destAddr ∧ seqAddr + sequenceWindowSize * 2 ≤ destAddr + flashLen then
      seqAddr + sequenceWindowSize
    else seqAddr
  (seqAddr / 16) % 65536

/-- `IsBiosAtSeg` (SSTFLASH.C 390-395): read the two bytes at `seg:0` and
report an option-ROM signature when `byte0 = 0x55` or `byte1 = 0xFF`. -/
def IsBiosAtSeg {σ : Type} (d : Dev σ) (s : σ) (seg : Nat) : Bool × σ × List Event :=
  let p0 := d.read s (seg * 16)
  let p1 := d.read p0.2 (seg * 16 + 1)
  (p0.1 = 0x55 ∨ p1.1 = 0xFF, p1.2, [Event.rd (seg * 16) p0.1, Event.rd (seg * 16 + 1) p1.1])

/-- The probe loop of `HaveOverlappingBioses` (SSTFLASH.C 405-418).
`curr` advances by 0x80 (2 KiB) per iteration; when `curr = destSeg`, the
body adds `flashLenInSeg` and the `continue` re-runs the for-increment, so
the next probed segment is `curr + flashLenInSeg + 0x80`.  All segment
arithmetic is on `unsigned short`, hence the `% 65536`.  `fuel` bounds the
number of iterations; every theorem below is scoped so that the loop
provably exits within the given fuel. -/
def overlapGo {σ : Type} (d : Dev σ) (destSeg flashLenInSeg endSeg : Nat) :
    Nat → Nat → σ → Bool × σ × List Event
  | 0, _, s => (false, s, [])
  | fuel + 1, curr, s =>
    if curr < endSeg then
      if curr = destSeg then
        overlapGo d destSeg flashLenInSeg endSeg fuel
          ((curr + flashLenInSeg + 0x80) % 65536) s
      else
        let p := IsBiosAtSeg d s curr
        if p.1 then (true, p.2.1, p.2.2)
        else
          let q := overlapGo d destSeg flashLenInSeg endSeg fuel ((curr + 0x80) % 65536) p.2.1
          (q.1, q.2.1, p.2.2 ++ q.2.2)
    else (false, s, [])

/-- `HaveOverlappingBioses` (SSTFLASH.C 397-421).  `twoKInSeg = 0x80`,
`thirtyTwoKInSeg = 0x800`, `flashLenInSeg = (unsigned short)(flashLen/16)`,
`endSeg = sequenceSeg + 0x800` on `unsigned short`. -/
def HaveOverlappingBioses {σ : Type} (d : Dev σ) (s : σ)
    (sequenceSeg destSeg : Nat) (flashLen : Nat) : Bool × σ × List Event :=
  let flashLenInSeg := (flashLen / 16) % 65536
  let endSeg := (sequenceSeg + 0x800) % 65536
  overlapGo d destSeg flashLenInSeg endSeg 65536 sequenceSeg s

/-- `DetectDeviceType` (SSTFLASH.C 462-506): disable interrupts, issue the
software-ID entry sequence, read the vendor byte four times (three dummy
reads to let the bus settle) and the device byte once, issue the exit
command, re-enable interrupts, and decode the ID pair. -/
def DetectDeviceType {σ : Type} (d : Dev σ) (s : σ) (seqSeg destSeg : Nat) :
    Option String × σ × List Event :=
  let sb := seqSeg * 16
  let db := destSeg * 16
  let s := d.write s (sb + 0x5555) 0xAA
  let s := d.write s (sb + 0x2AAA) 0x55
  let s := d.write s (sb + 0x5555) 0x90
  let p1 := d.read s db
  let p2 := d.read p1.2 db
  let p3 := d.read p2.2 db
  let p4 := d.read p3.2 db
  let p5 := d.read p4.2 (db + 1)
  let vendorId := p4.1
  let deviceId := p5.1
  let s := d.write p5.2 (sb + 0x5555) 0xF0
  let name : Option String :=
    if vendorId = 0xBF then
      if deviceId = 0xB4 then some "SST39SF512"
      else if deviceId = 0xB5 then some "SST39SF010"
      else if deviceId = 0xB6 then some "SST39SF020"
      else if deviceId = 0xB7 then some "SST39SF040"
      else none
    else none
  (name, s,
    [Event.cli, Event.wr (sb + 0x5555) 0xAA, Event.wr (sb + 0x2AAA) 0x55,
     Event.wr (sb + 0x5555) 0x90, Event.rd db p1.1, Event.rd db p2.1,
     Event.rd db p3.1, Event.rd db p4.1, Event.rd (db + 1) p5.1,
     Event.wr (sb + 0x5555) 0xF0, Event.sti])

/-- The bounded 250 ms wait of `EraseBlock` (SSTFLASH.C 521-527): up to
1163 outer iterations, each one call of `WaitForValue(dest, 0xFF, tlc)`. -/
def eraseWait {σ : Type} (d : Dev σ) (destAddr tlc : Nat) :
    Nat → σ → Bool × σ × List Event
  | 0, s => (false, s, [])
  | n + 1, s =>
    let p := WaitForValue d s destAddr 0xFF tlc
    if p.1 then (true, p.2.1, p.2.2)
    else
      let q := eraseWait d destAddr tlc n p.2.1
      (q.1, q.2.1, p.2.2 ++ q.2.2)

/-- `EraseBlock` (SSTFLASH.C 508-530): the six-write sector-erase sequence
(unlock, 0x80, unlock, 0x30 at `dest[0]`) followed by the bounded poll for
0xFF. -/
def EraseBlock {σ : Type} (d : Dev σ) (s : σ) (seqSeg destAddr tlc : Nat) :
    Bool × σ × List Event :=
  let sb := seqSeg * 16
  let s := d.write s (sb + 0x5555) 0xAA
  let s := d.write s (sb + 0x2AAA) 0x55
  let s := d.write s (sb + 0x5555) 0x80
  let s := d.write s (sb + 0x5555) 0xAA
  let s := d.write s (sb + 0x2AAA) 0x55
  let s := d.write s destAddr 0x30
  let q := eraseWait d destAddr tlc 1163 s
  (q.1, q.2.1,
    [Event.wr (sb + 0x5555) 0xAA, Event.wr (sb + 0x2AAA) 0x55,
     Event.wr (sb + 0x5555) 0x80, Event.wr (sb + 0x5555) 0xAA,
     Event.wr (sb + 0x2AAA) 0x55, Event.wr destAddr 0x30] ++ q.2.2)

/-- The byte-program loop of `ProgramBlock` (SSTFLASH.C 537-551).
`n` is the number of bytes still to program, `i = 4096 - n` the current
index; each iteration issues the three-write program sequence, stores
`src i` at `destAddr + i`, and polls that byte for `src i`. -/
def programGo {σ : Type} (d : Dev σ) (seqSeg destAddr : Nat) (src : Nat → Nat) (tlc : Nat) :
    Nat → Nat → σ → Bool × σ × List Event
  | 0, _, s => (true, s, [])
  | n + 1, i, s =>
    let sb := seqSeg * 16
    let s := d.write s (sb + 0x5555) 0xAA
    let s := d.write s (sb + 0x2AAA) 0x55
    let s := d.write s (sb + 0x5555) 0xA0
    let s := d.write s (destAddr + i) (src i)
    let p := WaitForValue d s (destAddr + i) (src i) tlc
    let pre :=
      [Event.wr (sb + 0x5555) 0xAA, Event.wr (sb + 0x2AAA) 0x55,
       Event.wr (sb + 0x5555) 0xA0, Event.wr (destAddr + i) (src i)] ++ p.2.2
    if p.1 then
      let q := programGo d seqSeg destAddr src tlc n (i + 1) p.2.1
      (q.1, q.2.1, pre ++ q.2.2)
    else (false, p.2.1, pre)

/-- `ProgramBlock` (SSTFLASH.C 532-554): program the 4096 bytes of one
flash block, returning `false` on the first byte whose poll times out. -/
def ProgramBlock {σ : Type} (d : Dev σ) (s : σ) (seqSeg : Nat) (src : Nat → Nat)
    (destAddr tlc : Nat) : Bool × σ × List Event :=
  programGo d seqSeg destAddr src tlc 4096 0 s

/-- The `memcmp(destPtr, block, FLASH_BLOCK_SIZE)` calls of `FlashRom` and
`VerifyRom`, modelled as 4096 sequential byte reads starting at `destAddr`
followed by the comparison with `block`.  (The C library routine may read
fewer bytes; only the boolean result and the absence of writes matter to
the theorems below.)  Returns `true` when every byte matches. -/
def memcmpGo {σ : Type} (d : Dev σ) (destAddr : Nat) (block : Nat → Nat) :
    Nat → Nat → σ → Bool → Bool × σ × List Event
  | 0, _, s, acc => (acc, s, [])
  | n + 1, i, s, acc =>
    let p := d.read s (destAddr + i)
    let q := memcmpGo d destAddr block n (i + 1) p.2 (acc && (p.1 = block i : Bool))
    (q.1, q.2.1, Event.rd (destAddr + i) p.1 :: q.2.2)

/-- See the module doc string: `memcmp(dest, block, 4096)` as 4096
sequential reads plus the comparison. -/
def memcmpBlock {σ : Type} (d : Dev σ) (s : σ) (destAddr : Nat) (block : Nat → Nat) :
    Bool × σ × List Event :=
  memcmpGo d destAddr block 4096 0 s true

/-- The block loop of `FlashRom` (SSTFLASH.C 569-591).  `destSeg` advances
by `blockSizeInSeg = 0x100` per block on an `unsigned short`; `acc` is
`numBlocksFlashed`.  `none` models the `errorString` break paths (erase or
program timeout), `some n` the normal exit with `n` blocks flashed. -/
def flashGo {σ : Type} (d : Dev σ) (seqSeg tlc : Nat) :
    List (Nat → Nat) → Nat → Nat → σ → Option Nat × σ × List Event
  | [], _, acc, s => (some acc, s, [])
  | b :: rest, destSeg, acc, s =>
    let destAddr := destSeg * 16
    let c := memcmpBlock d s destAddr b
    if c.1 then
      let q := flashGo d seqSeg tlc rest ((destSeg + 0x100) % 65536) acc c.2.1
      (q.1, q.2.1, c.2.2 ++ q.2.2)
    else
      let e := EraseBlock d c.2.1 seqSeg destAddr tlc
      if e.1 then
        let p := ProgramBlock d e.2.1 seqSeg b destAddr tlc
        if p.1 then
          let q := flashGo d seqSeg tlc rest ((destSeg + 0x100) % 65536) (acc + 1) p.2.1
          (q.1, q.2.1, c.2.2 ++ e.2.2 ++ p.2.2 ++ q.2.2)
        else (none, p.2.1, c.2.2 ++ e.2.2 ++ p.2.2)
      else (none, e.2.1, c.2.2 ++ e.2.2)

/-- `FlashRom` (SSTFLASH.C 559-602): disable interrupts, run the block
loop, re-enable interrupts; `-1` on an erase or program timeout, otherwise
the number of blocks flashed. -/
def FlashRom {σ : Type} (d : Dev σ) (s : σ) (seqSeg destSeg : Nat)
    (blocks : List (Nat → Nat)) (tlc : Nat) : Int × σ × List Event :=
  let q := flashGo d seqSeg tlc blocks destSeg 0 s
  match q.1 with
  | none => (-1, q.2.1, Event.cli :: q.2.2 ++ [Event.sti])
  | some n => ((n : Int), q.2.1, Event.cli :: q.2.2 ++ [Event.sti])

/-- The block loop of `VerifyRom` (SSTFLASH.C 610-618): compare every
block; `false` on the first mismatch.  The C loop stops early on a
mismatch; the boolean result is the same. -/
def verifyGo {σ : Type} (d : Dev σ) : List (Nat → Nat) → Nat → σ → Bool × σ × List Event
  | [], _, s => (true, s, [])
  | b :: rest, destSeg, s =>
    let c := memcmpBlock d s (destSeg * 16) b
    if c.1 then
      let q := verifyGo d rest ((destSeg + 0x100) % 65536) c.2.1
      (q.1, q.2.1, c.2.2 ++ q.2.2)
    else (false, c.2.1, c.2.2)

/-- `VerifyRom` (SSTFLASH.C 604-621): `true` iff every destination block
re-reads equal to the corresponding image block. -/
def VerifyRom {σ : Type} (d : Dev σ) (s : σ) (destSeg : Nat)
    (blocks : List (Nat → Nat)) : Bool × σ × List Event :=
  verifyGo d blocks destSeg s

/-- The result of a successful `LoadRomDataFromFile`: the `RomData` fields
plus the flag of the "will be rounded up" report (SSTFLASH.C 276-281),
which the claims refer to.  Each block is a total byte map; only indices
below 4096 are meaningful. -/
structure LoadResult where
  romBlocks : List (Nat → Nat)
  origRomSize : Nat
  romSize : Nat
  roundedUpMessage : Bool

/-- The read loop of `LoadRomDataFromFile` (SSTFLASH.C 224-245) over a file
of `fileLen` bytes with contents `fileByte`.  `pos` is the file position,
`eof` the stdio end-of-file flag (set by an `fread` that returns fewer
bytes than requested), `sizeRemaining` the budget in bytes.  Each pass
allocates a zeroed 4 KiB buffer, reads `readSize = min sizeRemaining 4096`
bytes into its head, and decrements the budget by `readSize` (not by the
bytes actually read).  `none` models the `return FALSE` of the max-size
check.  `fuel` bounds the passes; the loop body runs at most 65 times
because each pass appends a block and a 65th block triggers the error
exit, so the `fuel = 0` case is unreachable from `LoadRomDataFromFile`. -/
def loadGo (fileLen : Nat) (fileByte : Nat → Nat) :
    Nat → Nat → Bool → Nat → List (Nat → Nat) → Nat →
    Option (List (Nat → Nat) × Nat × Nat)
  | 0, _, _, _, _, _ => none
  | fuel + 1, pos, eof, sizeRemaining, blocks, orig =>
    if eof = true ∨ sizeRemaining = 0 then some (blocks, orig, sizeRemaining)
    else if 64 ≤ blocks.length then none
    else
      let readSize := min sizeRemaining 4096
      let actualRead := min readSize (fileLen - pos)
      let buffer : Nat → Nat := fun i => if i < actualRead then fileByte (pos + i) else 0
      loadGo fileLen fileByte fuel (pos + actualRead) (decide (actualRead < readSize))
        (sizeRemaining - readSize) (blocks ++ [buffer]) (orig + actualRead)

/-- All-zero flash block, as allocated by the padding loop. -/
def zeroBlock : Nat → Nat := fun _ => 0

/-- The padding loop of `LoadRomDataFromFile` (SSTFLASH.C 252-258), run
only when a size override is present: append zero blocks while the (signed)
remaining size `r` is positive, subtracting 4096 each time.  `fuel` bounds
the passes; the loop runs at most `⌈r / 4096⌉ ≤ 64` times for any override
the command line accepts, so the fuel of 65 passed by
`LoadRomDataFromFile` is never exhausted. -/
def padGo : Nat → Nat → List (Nat → Nat) → List (Nat → Nat)
  | 0, _, blocks => blocks
  | fuel + 1, r, blocks =>
    if 0 < r then padGo fuel (r - 4096) (blocks ++ [zeroBlock]) else blocks

/-- `LoadRomDataFromFile` (SSTFLASH.C 204-284) for an existing file of
`fileLen` bytes; `sizeOverrideK = 0` means no `-size` option (the C struct
field is zero-initialized).  `none` models `return FALSE`. -/
def LoadRomDataFromFile (fileLen : Nat) (fileByte : Nat → Nat) (sizeOverrideK : Nat) :
    Option LoadResult :=
  let sizeRemaining := if 0 < sizeOverrideK then sizeOverrideK * 1024 else 64 * 4096
  match loadGo fileLen fileByte 66 0 false sizeRemaining [] 0 with
  | none => none
  | some (blocks, orig, remaining) =>
    let blocks := if 0 < sizeOverrideK then padGo 65 remaining blocks else blocks
    let romSize := blocks.length * 4096
    if orig = 0 then none
    else if orig % 2048 ≠ 0 then none
    else some ⟨blocks, orig, romSize, decide (orig < romSize)⟩

/-- Terminal outcomes of `ProcessRom` (SSTFLASH.C 623-703).  The last three
model the `while (1) {}` halt after programming was attempted: the C
function never returns on those paths, and the preceding message
distinguishes them. -/
inductive ProcOutcome where
  | failDetect
  | userAbort
  | upToDate
  | haltError
  | haltComplete
  | haltVerifyFail
deriving DecidableEq, Repr

/-- `ProcessRom` (SSTFLASH.C 623-703): plan the command window, detect the
device, scan for overlapping ROMs (the warning only prints), ask for
confirmation, flash, and verify.  `tlc` stands in for
`CalculateTimeoutLoopCount`, whose BIOS-tick measurement is a host timing
service outside this model (its device reads are absorbed into the initial
state `s`); `confirm` stands in for the Y/N keystroke. -/
def ProcessRom {σ : Type} (d : Dev σ) (s : σ) (destSeg : Nat) (romData : LoadResult)
    (tlc : Nat) (confirm : Bool) : ProcOutcome × σ × List Event :=
  let sequenceSeg := CalculateSequenceSeg destSeg romData.romSize
  let det := DetectDeviceType d s sequenceSeg destSeg
  match det.1 with
  | none => (ProcOutcome.failDetect, det.2.1, det.2.2)
  | some _ =>
    let ov := HaveOverlappingBioses d det.2.1 sequenceSeg destSeg romData.romSize
    if confirm = false then (ProcOutcome.userAbort, ov.2.1, det.2.2 ++ ov.2.2)
    else
      let fl := FlashRom d ov.2.1 sequenceSeg destSeg romData.romBlocks tlc
      let tr := det.2.2 ++ ov.2.2 ++ fl.2.2
      if fl.1 = 0 then (ProcOutcome.upToDate, fl.2.1, tr)
      else if fl.1 < 0 then (ProcOutcome.haltError, fl.2.1, tr)
      else
        let ver := VerifyRom d fl.2.1 destSeg romData.romBlocks
        if ver.1 then (ProcOutcome.haltComplete, ver.2.1, tr ++ ver.2.2)
        else (ProcOutcome.haltVerifyFail, ver.2.1, tr ++ ver.2.2)

/-! ### The window planner (claims C2, C3) -/

/-- Core arithmetic of `CalculateSequenceSeg`, before the final
`(short)(seqAddr >> 4)` store: the chosen window base address. -/
lemma calculateSequenceSeg_eq (D L : Nat) :
    CalculateSequenceSeg D L =
      ((if D * 16 - D * 16 % 32768 < D * 16 ∧
            D * 16 - D * 16 % 32768 + 65536 ≤ D * 16 + L then
          D * 16 - D * 16 % 32768 + 32768
        else D * 16 - D * 16 % 32768) / 16) % 65536 := by
  simp [CalculateSequenceSeg]

/-- C2: for command-line-legal destination segments the planner output is
32 KiB-aligned, but `S ≤ D` fails whenever the round-up branch fires; what
always holds is `S ≤ D` or the whole 32 KiB window starting at `S` lies
inside the declared flash range above `D`. -/
theorem claim2_planner_alignment (D L : Nat) (h1 : D % 256 = 0) (h2 : 0xA000 ≤ D)
    (h3 : D ≤ 0xFF00) :
    CalculateSequenceSeg D L % 0x800 = 0 ∧
      (CalculateSequenceSeg D L ≤ D ∨
        (D < CalculateSequenceSeg D L ∧
          16 * CalculateSequenceSeg D L + 0x8000 ≤ 16 * D + L)) := by
  have hqr := Nat.div_add_mod (D * 16) 32768
  have hrlt : D * 16 % 32768 < 32768 := Nat.mod_lt _ (by norm_num)
  have hqle : D * 16 / 32768 ≤ 31 := by omega
  rw [calculateSequenceSeg_eq]
  set q := D * 16 / 32768 with hq
  set r := D * 16 % 32768 with hr
  split_ifs with hc
  · -- round-up branch
    have hv : (D * 16 - r + 32768) / 16 = 2048 * (q + 1) := by omega
    rw [hv]
    rcases Nat.lt_or_ge (2048 * (q + 1)) 65536 with hlt | hge
    · rw [Nat.mod_eq_of_lt hlt]
      refine ⟨?_, Or.inr ⟨by omega, by omega⟩⟩
      omega
    · have hq31 : q = 31 := by omega
      rw [hq31]
      norm_num
  · -- floor branch
    have hv : (D * 16 - r) / 16 = 2048 * q := by omega
    rw [hv]
    have h65536 : (65536 : Nat) = 2048 * 32 := by norm_num
    constructor
    · rw [h65536, Nat.mul_mod_mul_left]
      exact Nat.mul_mod_right 2048 _
    · exact Or.inl (le_trans (Nat.mod_le _ _) (by omega))

/-- C2 witness: the planner theorem at `D = 0xC800`, `L = 32 KiB`. -/
theorem claim2_planner_alignment_witness :
    (0xC800 % 256 = 0 ∧ 0xA000 ≤ 0xC800 ∧ 0xC800 ≤ 0xFF00) ∧
      (CalculateSequenceSeg 0xC800 0x8000 % 0x800 = 0 ∧
        (CalculateSequenceSeg 0xC800 0x8000 ≤ 0xC800 ∨
          (0xC800 < CalculateSequenceSeg 0xC800 0x8000 ∧
            16 * CalculateSequenceSeg 0xC800 0x8000 + 0x8000 ≤
              16 * 0xC800 + 0x8000))) :=
  ⟨by norm_num,
    claim2_planner_alignment 0xC800 0x8000 (by norm_num) (by norm_num) (by norm_num)⟩

/-- C2 counterexample: `D = 0xC900` (a legal command-line segment) with
flash length 64 KiB makes the round-up branch fire and the planner returns
`S = 0xD000 > D`, refuting `S ≤ D`. -/
theorem claim2_counterexample :
    0xC900 % 256 = 0 ∧ 0xA000 ≤ 0xC900 ∧
      CalculateSequenceSeg 0xC900 0x10000 = 0xD000 ∧
      ¬ CalculateSequenceSeg 0xC900 0x10000 ≤ 0xC900 := by
  refine ⟨by norm_num, by norm_num, by decide, by decide⟩

/-- C3 counterexample: `0xC800 << 4 = 0xC8000` is already a multiple of
0x8000, so the floor step leaves it unchanged and the planner returns
`S = 0xC800`, not the `0xC000` the claim states (the spec floored to a
64 KiB boundary by mistake). -/
theorem claim3_counterexample :
    CalculateSequenceSeg 0xC800 0x8000 = 0xC800 ∧
      CalculateSequenceSeg 0xC800 0x8000 ≠ 0xC000 := by
  exact ⟨by decide, by decide⟩

/-- C3 (amended): for `D = 0xC800`, `L = 32 KiB` the planner returns
`S = 0xC800` — `D<<4` is already 32 KiB-aligned, and the round-up
condition does not fire. -/
theorem claim3_plan_happy_path : CalculateSequenceSeg 0xC800 0x8000 = 0xC800 := by
  decide

/-! ### The polling primitive (claim C4) -/

lemma waitGo_length {σ : Type} (d : Dev σ) (addr value : Nat) :
    ∀ (n : Nat) (s : σ), (waitGo d addr value n s).2.2.length ≤ n := by
  intro n
  induction n with
  | zero => intro s; simp [waitGo]
  | succ n ih =>
    intro s
    simp only [waitGo]
    split
    · simp
    · simpa using ih _

lemma waitGo_events {σ : Type} (d : Dev σ) (addr value : Nat) :
    ∀ (n : Nat) (s : σ) (e : Event), e ∈ (waitGo d addr value n s).2.2 →
      ∃ v, e = Event.rd addr v := by
  intro n
  induction n with
  | zero => intro s e he; simp [waitGo] at he
  | succ n ih =>
    intro s e he
    simp only [waitGo] at he
    split at he
    · simp at he
      exact ⟨_, he⟩
    · rcases List.mem_cons.mp he with h | h
      · exact ⟨_, h⟩
      · exact ih _ _ h

lemma waitGo_true_iff {σ : Type} (d : Dev σ) (addr value : Nat) :
    ∀ (n : Nat) (s : σ),
      (waitGo d addr value n s).1 = true ↔
        Event.rd addr value ∈ (waitGo d addr value n s).2.2 := by
  intro n
  induction n with
  | zero => intro s; simp [waitGo]
  | succ n ih =>
    intro s
    simp only [waitGo]
    split
    next h => simp [h]
    next h =>
      simp only [List.mem_cons, ih, Event.rd.injEq]
      constructor
      · intro hmem; exact Or.inr hmem
      · rintro (⟨-, hv⟩ | hmem)
        · exact absurd hv.symm h
        · exact hmem

lemma waitGo_pure_length (m : Nat → Nat) (addr value : Nat) (h : ¬ m addr = value) :
    ∀ (n : Nat) (s : Unit), (waitGo (pureDev m) addr value n s).2.2.length = n := by
  intro n
  induction n with
  | zero => intro s; simp [waitGo]
  | succ n ih =>
    intro s
    simp only [waitGo, pureDev]
    rw [if_neg h]
    simpa using ih _

/-- C4 (amended): for `1 ≤ timeoutCount ≤ 0xFFFF` the polling primitive
performs at most `timeoutCount` reads, all of them of `addr`, and returns
`TRUE` exactly when some read returned `value` (`FALSE` on timeout).  The
claim's inclusion of `timeoutCount = 0` fails: the C do-while decrements
an `unsigned short` after the first pass, so 0 wraps and yields 0x10000
reads (see `claim4_counterexample`). -/
theorem claim4_polling_bounded {σ : Type} (d : Dev σ) (s : σ)
    (addr value timeoutCount : Nat) (h1 : 1 ≤ timeoutCount) (h2 : timeoutCount ≤ 65535) :
    (WaitForValue d s addr value timeoutCount).2.2.length ≤ timeoutCount ∧
      (∀ e ∈ (WaitForValue d s addr value timeoutCount).2.2, ∃ v, e = Event.rd addr v) ∧
      ((WaitForValue d s addr value timeoutCount).1 = true ↔
        Event.rd addr value ∈ (WaitForValue d s addr value timeoutCount).2.2) := by
  have hit : wfvIterations timeoutCount = timeoutCount := by
    unfold wfvIterations
    rw [Nat.mod_eq_of_lt (by omega)]
    rw [if_neg (by omega)]
  unfold WaitForValue
  rw [hit]
  exact ⟨waitGo_length d addr value _ s, fun e he => waitGo_events d addr value _ s e he,
    waitGo_true_iff d addr value _ s⟩

/-- C4 witness: the bound at `timeoutCount = 3` against a device that
always reads 0 while polling for 7. -/
theorem claim4_polling_bounded_witness :
    (1 ≤ 3 ∧ 3 ≤ 65535) ∧
      ((WaitForValue (pureDev fun _ => 0) () 3 7 3).2.2.length ≤ 3 ∧
        (∀ e ∈ (WaitForValue (pureDev fun _ => 0) () 3 7 3).2.2, ∃ v, e = Event.rd 3 v) ∧
        ((WaitForValue (pureDev fun _ => 0) () 3 7 3).1 = true ↔
          Event.rd 3 7 ∈ (WaitForValue (pureDev fun _ => 0) () 3 7 3).2.2)) :=
  ⟨by norm_num,
    claim4_polling_bounded (pureDev fun _ => 0) () 3 7 3 (by norm_num) (by norm_num)⟩

/-- C4 counterexample: with `timeoutCount = 0` the primitive performs
65536 reads against a device that never matches, not "at most 0": the
`--timeoutCount` on an `unsigned short` wraps from 0 to 0xFFFF. -/
theorem claim4_counterexample :
    (WaitForValue (pureDev fun _ => 0) () 3 7 0).2.2.length = 65536 ∧
      ¬ (WaitForValue (pureDev fun _ => 0) () 3 7 0).2.2.length ≤ 0 := by
  have h : (WaitForValue (pureDev fun _ => 0) () 3 7 0).2.2.length = 65536 := by
    unfold WaitForValue wfvIterations
    norm_num
    exact waitGo_pure_length (fun _ => 0) 3 7 (by norm_num) 65536 ()
  exact ⟨h, by omega⟩

/-! ### The ROM image loader (claims C5, C6, and the image part of C1) -/

/-- The j-th 4 KiB block the no-override loader builds from a file of
`len` bytes: the file slice at `[4096 j, 4096 j + 4096)`, zero-padded. -/
def loadBlock (len : Nat) (f : Nat → Nat) (j : Nat) : Nat → Nat :=
  fun i => if i < min 4096 (len - 4096 * j) then f (4096 * j + i) else 0

/-- Byte `off` of the original file contents zero-padded beyond `len`. -/
def paddedByte (len : Nat) (f : Nat → Nat) (off : Nat) : Nat :=
  if off < len then f off else 0

lemma loadGo_exit (len : Nat) (f : Nat → Nat) (fuel pos : Nat) (eof : Bool)
    (r : Nat) (bs : List (Nat → Nat)) (orig : Nat) (h : eof = true ∨ r = 0) :
    loadGo len f (fuel + 1) pos eof r bs orig = some (bs, orig, r) := by
  simp only [loadGo]
  rw [if_pos h]

lemma loadGo_step (len : Nat) (f : Nat → Nat) (fuel pos : Nat) (eof : Bool)
    (r : Nat) (bs : List (Nat → Nat)) (orig : Nat)
    (h : ¬ (eof = true ∨ r = 0)) (hb : bs.length < 64) :
    loadGo len f (fuel + 1) pos eof r bs orig =
      loadGo len f fuel (pos + min (min r 4096) (len - pos))
        (decide (min (min r 4096) (len - pos) < min r 4096)) (r - min r 4096)
        (bs ++ [fun i => if i < min (min r 4096) (len - pos) then f (pos + i) else 0])
        (orig + min (min r 4096) (len - pos)) := by
  simp only [loadGo]
  rw [if_neg h, if_neg (by omega)]

/-- Closed form of the no-override read loop, by induction on the fuel:
starting from block index `k` with the loop invariant
(`pos = 4096 k`, EOF clear, budget `262144 - 4096 k`), the loop appends
`min 64 (len/4096 + 1) - k` further blocks — every file slice, plus (for a
file short of the 256 KiB budget) one block whose read hit EOF — and
accumulates `min len 262144 - 4096 k` further bytes read. -/
lemma loadGo_noOverride (len : Nat) (f : Nat → Nat) :
    ∀ (fuel k : Nat) (bs : List (Nat → Nat)) (orig : Nat),
      bs.length = k → k ≤ 64 → 4096 * k ≤ len → 65 - k ≤ fuel →
      loadGo len f fuel (4096 * k) false (262144 - 4096 * k) bs orig =
        some (bs ++ (List.range' k (min 64 (len / 4096 + 1) - k)).map (loadBlock len f),
              orig + (min len 262144 - 4096 * k),
              262144 - 4096 * min 64 (len / 4096 + 1)) := by
  intro fuel
  induction fuel with
  | zero => intro k bs orig hlen hk hkl hfuel; omega
  | succ fuel ih =>
    intro k bs orig hlen hk hkl hfuel
    by_cases hk64 : k = 64
    · subst hk64
      have hB : min 64 (len / 4096 + 1) = 64 := by omega
      rw [loadGo_exit len f fuel _ _ _ _ _ (Or.inr (by norm_num)), hB]
      simp
    · have hklt : k < 64 := by omega
      rw [loadGo_step len f fuel _ _ _ _ _ (by simp; omega) (by omega)]
      have hrs : min (262144 - 4096 * k) 4096 = 4096 := by omega
      rw [hrs]
      by_cases hfull : 4096 * (k + 1) ≤ len
      · have ha : min 4096 (len - 4096 * k) = 4096 := by omega
        rw [ha]
        rw [show decide (4096 < 4096) = false from by decide]
        rw [show (fun i => if i < 4096 then f (4096 * k + i) else 0) =
              loadBlock len f k from by
            unfold loadBlock; rw [ha]]
        rw [show 4096 * k + 4096 = 4096 * (k + 1) from by ring,
            show 262144 - 4096 * k - 4096 = 262144 - 4096 * (k + 1) from by omega]
        rw [ih (k + 1) _ _ (by simp [hlen]) (by omega) hfull (by omega)]
        have hBk : k + 1 ≤ min 64 (len / 4096 + 1) := by omega
        have hrange : List.range' k (min 64 (len / 4096 + 1) - k) =
            k :: List.range' (k + 1) (min 64 (len / 4096 + 1) - (k + 1)) := by
          rw [show min 64 (len / 4096 + 1) - k =
                (min 64 (len / 4096 + 1) - (k + 1)) + 1 from by omega]
          rw [List.range'_succ]
        rw [hrange]
        simp only [List.map_cons, List.append_assoc, List.singleton_append]
        rw [show orig + 4096 + (min len 262144 - 4096 * (k + 1)) =
              orig + (min len 262144 - 4096 * k) from by omega]
      · have ha : min 4096 (len - 4096 * k) = len - 4096 * k := by omega
        rw [ha]
        rw [show decide (len - 4096 * k < 4096) = true from decide_eq_true (by omega)]
        obtain ⟨fuel2, rfl⟩ : ∃ f2, fuel = f2 + 1 := ⟨fuel - 1, by omega⟩
        rw [loadGo_exit len f fuel2 _ _ _ _ _ (Or.inl rfl)]
        have hB : min 64 (len / 4096 + 1) = k + 1 := by omega
        rw [hB]
        rw [show k + 1 - k = 1 from by omega, List.range'_one]
        rw [show (fun i => if i < len - 4096 * k then f (4096 * k + i) else 0) =
              loadBlock len f k from by
            unfold loadBlock; rw [ha]]
        simp only [List.map_cons, List.map_nil]
        rw [show (min len 262144 : Nat) = len from by omega,
            show 262144 - 4096 * k - 4096 = 262144 - 4096 * (k + 1) from by omega]

/-- Closed form of `LoadRomDataFromFile` with no size override, for any
non-empty file whose length is a multiple of 2 KiB: the call succeeds and
returns `min 64 (len/4096 + 1)` blocks holding the (truncated) file slices,
with `origRomSize = min len 262144`. -/
lemma loadRom_noOverride (len : Nat) (f : Nat → Nat) (h0 : 0 < len)
    (h2 : len % 2048 = 0) :
    LoadRomDataFromFile len f 0 =
      some ⟨(List.range' 0 (min 64 (len / 4096 + 1))).map (loadBlock len f),
            min len 262144, (min 64 (len / 4096 + 1)) * 4096,
            decide (min len 262144 < min 64 (len / 4096 + 1) * 4096)⟩ := by
  have h := loadGo_noOverride len f 66 0 [] 0 rfl (by norm_num) (by norm_num) (by norm_num)
  simp only [Nat.mul_zero, Nat.sub_zero, List.nil_append, Nat.zero_add] at h
  simp only [LoadRomDataFromFile, lt_irrefl, if_false, ne_eq, ite_not,
    show ((64 : Nat) * 4096) = 262144 from by norm_num]
  rw [h]
  simp only [List.length_map, List.length_range']
  rw [if_neg (by omega), if_pos (by omega)]

/-- C5 (amended): for every non-empty file with length a multiple of 2048
and at most 256 KiB, loaded with no size override: `origRomSize` is the
file length; the programmed length is `4096 · min 64 (len/4096 + 1)` —
this is the claimed round-up `4096⌈len/4096⌉` when `len` is *not* a 4 KiB
multiple, but for an exact 4 KiB multiple below 256 KiB the `feof`-driven
loop appends one extra all-zero block; and the rounding message is
reported exactly when `len < 256 KiB` (so also for exact 4 KiB multiples,
against the claim). -/
theorem claim5_loader_padding (len : Nat) (f : Nat → Nat)
    (h0 : 0 < len) (h2 : len % 2048 = 0) (h3 : len ≤ 262144) :
    ∃ r, LoadRomDataFromFile len f 0 = some r ∧
      r.origRomSize = len ∧
      r.romSize = 4096 * min 64 (len / 4096 + 1) ∧
      (len % 4096 ≠ 0 → r.romSize = 4096 * ((len + 4095) / 4096)) ∧
      (r.roundedUpMessage = true ↔ len < 262144) := by
  refine ⟨_, loadRom_noOverride len f h0 h2, ?_, ?_, ?_, ?_⟩
  · show min len 262144 = len
    omega
  · show min 64 (len / 4096 + 1) * 4096 = 4096 * min 64 (len / 4096 + 1)
    omega
  · intro h4
    show min 64 (len / 4096 + 1) * 4096 = 4096 * ((len + 4095) / 4096)
    omega
  · show decide (min len 262144 < min 64 (len / 4096 + 1) * 4096) = true ↔ len < 262144
    rw [decide_eq_true_eq]
    omega

/-- C5 witness: the loader theorem at a 6 KiB file. -/
theorem claim5_loader_padding_witness :
    (0 < 6144 ∧ 6144 % 2048 = 0 ∧ 6144 ≤ 262144) ∧
      (∃ r, LoadRomDataFromFile 6144 (fun i => i) 0 = some r ∧
        r.origRomSize = 6144 ∧
        r.romSize = 4096 * min 64 (6144 / 4096 + 1) ∧
        (6144 % 4096 ≠ 0 → r.romSize = 4096 * ((6144 + 4095) / 4096)) ∧
        (r.roundedUpMessage = true ↔ 6144 < 262144)) :=
  ⟨by norm_num,
    claim5_loader_padding 6144 (fun i => i) (by norm_num) (by norm_num) (by norm_num)⟩

/-- C5 counterexample: a file of exactly 4096 bytes — non-empty, a
multiple of 2048, accepted with no override — loads into *two* blocks
(8192 programmed bytes, not the claimed 4096 = its own round-up) and the
rounding message *is* reported: the `while (!feof && ...)` loop only
learns of EOF from the extra `fread` that returns 0 bytes, after it has
already allocated another zeroed block. -/
theorem claim5_counterexample :
    (LoadRomDataFromFile 4096 (fun _ => 5) 0).map
        (fun r => (r.romSize, r.roundedUpMessage)) = some (8192, true) ∧
      (8192 : Nat) ≠ 4096 :=
  ⟨by rfl, by norm_num⟩

/-- C6: a 258 KiB file (264192 bytes > 262144) is *accepted* by
`LoadRomDataFromFile`: the loop exits because `sizeRemaining` reaches 0
after 64 blocks, before the (dead) `numRomBlocks >= MAX_ROM_BLOCK_COUNT`
error check can fire, so the file is silently truncated to its first
262144 bytes and the call returns TRUE — against both the spec and the
error message present in the code itself. -/
theorem claim6_oversize_accepted :
    (LoadRomDataFromFile 264192 (fun _ => 0) 0).map
        (fun r => (r.origRomSize, r.romSize, r.roundedUpMessage)) =
      some (262144, 262144, false) ∧
      (LoadRomDataFromFile 264192 (fun _ => 0) 0).isSome = true :=
  ⟨by rfl, by rfl⟩

/-! ### The overlap scan (claim C8) -/

/-- The signature heuristic of `IsBiosAtSeg` on a pure byte map. -/
def biosSig (m : Nat → Nat) (c : Nat) : Prop :=
  m (c * 16) = 0x55 ∨ m (c * 16 + 1) = 0xFF

instance (m : Nat → Nat) (c : Nat) : Decidable (biosSig m c) := by
  unfold biosSig; infer_instance

lemma isBiosAtSeg_pure (m : Nat → Nat) (s : Unit) (c : Nat) :
    (IsBiosAtSeg (pureDev m) s c).1 = decide (biosSig m c) := by
  simp [IsBiosAtSeg, pureDev, biosSig]

/-- Probe phase of the overlap loop strictly above the destination
segment: no skip can fire any more, and the loop reports a hit iff some
probed segment in `[curr, E)` carries the signature. -/
lemma overlapGo_post (m : Nat → Nat) (D F E : Nat) (hE : E + 0x80 ≤ 65536) :
    ∀ (fuel curr : Nat) (s : Unit), D < curr → (E - curr) % 0x80 = 0 →
      E - curr ≤ 0x80 * fuel →
      ((overlapGo (pureDev m) D F E fuel curr s).1 = true ↔
        ∃ c, curr ≤ c ∧ c < E ∧ (c - curr) % 0x80 = 0 ∧ biosSig m c) := by
  intro fuel
  induction fuel with
  | zero =>
    intro curr s hD hal hfuel
    simp only [overlapGo]
    constructor
    · intro h; exact absurd h (by norm_num)
    · rintro ⟨c, h1, h2, -, -⟩; omega
  | succ fuel ih =>
    intro curr s hD hal hfuel
    simp only [overlapGo]
    by_cases hlt : curr < E
    · rw [if_pos hlt, if_neg (by omega)]
      rcases hb : decide (biosSig m curr) with _ | _
      · have hbn : ¬ biosSig m curr := of_decide_eq_false hb
        have hmod : (curr + 0x80) % 65536 = curr + 0x80 :=
          Nat.mod_eq_of_lt (by omega)
        simp only [isBiosAtSeg_pure, hb, if_neg Bool.false_ne_true, hmod]
        rw [ih (curr + 0x80) _ (by omega) (by omega) (by omega)]
        constructor
        · rintro ⟨c, h1, h2, h3, h4⟩
          exact ⟨c, by omega, h2, by omega, h4⟩
        · rintro ⟨c, h1, h2, h3, h4⟩
          refine ⟨c, ?_, h2, ?_, h4⟩
          · rcases Nat.eq_or_lt_of_le h1 with rfl | hgt
            · exact absurd h4 hbn
            · omega
          · rcases Nat.eq_or_lt_of_le h1 with rfl | hgt
            · exact absurd h4 hbn
            · omega
      · simp only [isBiosAtSeg_pure, hb, if_pos rfl]
        constructor
        · intro _
          exact ⟨curr, le_refl _, hlt, by omega, of_decide_eq_true hb⟩
        · intro _; rfl
    · rw [if_neg hlt]
      constructor
      · intro h; exact absurd h (by norm_num)
      · rintro ⟨c, h1, h2, -, -⟩; omega

/-- Probe phase of the overlap loop at or below the destination segment:
the loop probes `[curr, D)`, then jumps from `D` to `D + F + 0x80`
(the `curr += flashLenInSeg; continue;` plus the for-increment), and
continues probing up to `E`. -/
lemma overlapGo_pre (m : Nat → Nat) (D F E : Nat) (hE : E + 0x80 ≤ 65536)
    (hJ : D + F + 0x80 < 65536) (hDE : D < E)
    (hFa : F % 0x80 = 0) (hEDa : (E - D) % 0x80 = 0) :
    ∀ (fuel curr : Nat) (s : Unit), curr ≤ D → (D - curr) % 0x80 = 0 →
      (D - curr) + (E - (D + F + 0x80)) + 0x100 ≤ 0x80 * fuel →
      ((overlapGo (pureDev m) D F E fuel curr s).1 = true ↔
        ((∃ c, curr ≤ c ∧ c < D ∧ (c - curr) % 0x80 = 0 ∧ biosSig m c) ∨
         (∃ c, D + F + 0x80 ≤ c ∧ c < E ∧ (c - (D + F + 0x80)) % 0x80 = 0 ∧
            biosSig m c))) := by
  intro fuel
  induction fuel with
  | zero => intro curr s h1 h2 h3; omega
  | succ fuel ih =>
    intro curr s h1 h2 h3
    simp only [overlapGo]
    rw [if_pos (by omega)]
    by_cases hD : curr = D
    · subst hD
      rw [if_pos rfl]
      have hmod : (curr + F + 0x80) % 65536 = curr + F + 0x80 :=
        Nat.mod_eq_of_lt hJ
      rw [hmod]
      rw [overlapGo_post m curr F E hE fuel (curr + F + 0x80) _ (by omega)
        (by omega) (by omega)]
      constructor
      · rintro ⟨c, hc1, hc2, hc3, hc4⟩
        exact Or.inr ⟨c, hc1, hc2, hc3, hc4⟩
      · rintro (⟨c, hc1, hc2, -, -⟩ | ⟨c, hc1, hc2, hc3, hc4⟩)
        · omega
        · exact ⟨c, hc1, hc2, hc3, hc4⟩
    · rw [if_neg hD]
      rcases hb : decide (biosSig m curr) with _ | _
      · have hbn : ¬ biosSig m curr := of_decide_eq_false hb
        have hmod : (curr + 0x80) % 65536 = curr + 0x80 :=
          Nat.mod_eq_of_lt (by omega)
        simp only [isBiosAtSeg_pure, hb, if_neg Bool.false_ne_true, hmod]
        rw [ih (curr + 0x80) _ (by omega) (by omega) (by omega)]
        constructor
        · rintro (⟨c, hc1, hc2, hc3, hc4⟩ | hr)
          · exact Or.inl ⟨c, by omega, hc2, by omega, hc4⟩
          · exact Or.inr hr
        · rintro (⟨c, hc1, hc2, hc3, hc4⟩ | hr)
          · refine Or.inl ⟨c, ?_, hc2, ?_, hc4⟩
            · rcases Nat.eq_or_lt_of_le hc1 with rfl | hgt
              · exact absurd hc4 hbn
              · omega
            · rcases Nat.eq_or_lt_of_le hc1 with rfl | hgt
              · exact absurd hc4 hbn
              · omega
          · exact Or.inr hr
      · simp only [isBiosAtSeg_pure, hb, if_pos rfl]
        constructor
        · intro _
          exact Or.inl ⟨curr, le_refl _, by omega, by omega, of_decide_eq_true hb⟩
        · intro _; rfl

/-- C8 (amended): the probe loop walks the 2 KiB-stride segments of
`[S, S + 0x800)` and returns TRUE iff one of them carries the signature
`byte0 = 0x55 ∨ byte1 = 0xFF` — but the skipped range is
`[D, D + L/16 + 0x80)`, one full stride *beyond* the destination range:
when `curr = D` the body adds `flashLenInSeg` and the for-increment adds
another 0x80 before the next probe, so the first 2 KiB segment after the
destination range is never examined (against the claim). -/
theorem claim8_overlap_scan (m : Nat → Nat) (S D L : Nat)
    (hS : S + 0x880 ≤ 65536) (h1 : S ≤ D) (h2 : D < S + 0x800)
    (hAl : (D - S) % 0x80 = 0) (hL : L % 2048 = 0) (hLle : L ≤ 262144)
    (hJ : D + L / 16 + 0x80 < 65536) :
    (HaveOverlappingBioses (pureDev m) () S D L).1 = true ↔
      ∃ c, S ≤ c ∧ c < S + 0x800 ∧ (c - S) % 0x80 = 0 ∧
        (c < D ∨ D + L / 16 + 0x80 ≤ c) ∧
        (m (c * 16) = 0x55 ∨ m (c * 16 + 1) = 0xFF) := by
  unfold HaveOverlappingBioses
  rw [show (L / 16) % 65536 = L / 16 from Nat.mod_eq_of_lt (by omega)]
  rw [show (S + 0x800) % 65536 = S + 0x800 from Nat.mod_eq_of_lt (by omega)]
  rw [overlapGo_pre m D (L / 16) (S + 0x800) (by omega) hJ h2 (by omega)
    (by omega) 65536 S () h1 hAl (by omega)]
  constructor
  · rintro (⟨c, hc1, hc2, hc3, hc4⟩ | ⟨c, hc1, hc2, hc3, hc4⟩)
    · exact ⟨c, hc1, by omega, hc3, Or.inl hc2, hc4⟩
    · exact ⟨c, by omega, hc2, by omega, Or.inr hc1, hc4⟩
  · rintro ⟨c, hc1, hc2, hc3, hcd | hcd, hc5⟩
    · exact Or.inl ⟨c, hc1, hcd, hc3, hc5⟩
    · exact Or.inr ⟨c, hcd, hc2, by omega, hc5⟩

/-- C8 witness: the scan theorem at `S = D = 0xC000`, `L = 4 KiB`, against
a map carrying a signature at segment 0xC180. -/
theorem claim8_overlap_scan_witness :
    (0xC000 + 0x880 ≤ 65536 ∧ 0xC000 ≤ 0xC000 ∧ 0xC000 < 0xC000 + 0x800 ∧
      (0xC000 - 0xC000) % 0x80 = 0 ∧ 0x1000 % 2048 = 0 ∧ 0x1000 ≤ 262144 ∧
      0xC000 + 0x1000 / 16 + 0x80 < 65536) ∧
    ((HaveOverlappingBioses
        (pureDev fun a => if a = 0xC1800 then 0x55 else 0) () 0xC000 0xC000
          0x1000).1 = true ↔
      ∃ c, 0xC000 ≤ c ∧ c < 0xC000 + 0x800 ∧ (c - 0xC000) % 0x80 = 0 ∧
        (c < 0xC000 ∨ 0xC000 + 0x1000 / 16 + 0x80 ≤ c) ∧
        ((if c * 16 = 0xC1800 then (0x55 : Nat) else 0) = 0x55 ∨
          (if c * 16 + 1 = 0xC1800 then (0x55 : Nat) else 0) = 0xFF)) :=
  ⟨by norm_num,
    claim8_overlap_scan (fun a => if a = 0xC1800 then 0x55 else 0) 0xC000 0xC000
      0x1000 (by norm_num) (by norm_num) (by norm_num) (by norm_num) (by norm_num)
      (by norm_num) (by norm_num)⟩

/-- C8 counterexample: with `S = D = 0xC000` and `L = 4 KiB`, segment
0xC100 is the first 2 KiB segment *after* the destination range
`[0xC000, 0xC100)`; per the claim it must be examined, and it carries the
0x55 signature here, yet the scan returns FALSE — the skip jumps straight
to 0xC180. -/
theorem claim8_counterexample :
    (HaveOverlappingBioses (pureDev fun a => if a = 0xC1000 then 0x55 else 0) ()
        0xC000 0xC000 0x1000).1 = false ∧
      (IsBiosAtSeg (pureDev fun a => if a = 0xC1000 then 0x55 else 0) ()
        0xC100).1 = true ∧
      ¬ (0xC000 ≤ 0xC100 ∧ 0xC100 < 0xC000 + 0x1000 / 16) ∧
      0xC000 ≤ 0xC100 ∧ 0xC100 < 0xC000 + 0x800 ∧ (0xC100 - 0xC000) % 0x80 = 0 := by
  refine ⟨by decide, by decide, by decide, by decide, by decide, by decide⟩

/-! ### Trace classification (towards claims C7, C9, C10) -/

/-- A trace of pure polls/compares: every event is a read. -/
def rdOnly (tr : List Event) : Prop := ∀ e ∈ tr, e.isRd = true

/-- No interrupt-flag event in the trace. -/
def noIntEvents (tr : List Event) : Prop := ∀ e ∈ tr, e.isInt = false

lemma rdOnly_nil : rdOnly [] := by intro e he; simp at he

lemma rdOnly_append {t1 t2 : List Event} (h1 : rdOnly t1) (h2 : rdOnly t2) :
    rdOnly (t1 ++ t2) := by
  intro e he
  rcases List.mem_append.mp he with h | h
  · exact h1 e h
  · exact h2 e h

lemma rdOnly.noInt {tr : List Event} (h : rdOnly tr) : noIntEvents tr := by
  intro e he
  have := h e he
  cases e <;> simp_all [Event.isRd, Event.isInt]

lemma rdOnly.noWr {tr : List Event} (h : rdOnly tr) : ∀ e ∈ tr, e.isWr = false := by
  intro e he
  have := h e he
  cases e <;> simp_all [Event.isRd, Event.isWr]

lemma noIntEvents_append {t1 t2 : List Event} (h1 : noIntEvents t1)
    (h2 : noIntEvents t2) : noIntEvents (t1 ++ t2) := by
  intro e he
  rcases List.mem_append.mp he with h | h
  · exact h1 e h
  · exact h2 e h

lemma noIntEvents_filter_eq_nil {tr : List Event} (h : noIntEvents tr) :
    tr.filter Event.isInt = [] := by
  rw [List.filter_eq_nil_iff]
  intro e he
  simp [h e he]

lemma waitGo_rdOnly {σ : Type} (d : Dev σ) (addr value : Nat) (n : Nat) (s : σ) :
    rdOnly (waitGo d addr value n s).2.2 := by
  intro e he
  obtain ⟨v, rfl⟩ := waitGo_events d addr value n s e he
  rfl

lemma eraseWait_rdOnly {σ : Type} (d : Dev σ) (destAddr tlc : Nat) :
    ∀ (n : Nat) (s : σ), rdOnly (eraseWait d destAddr tlc n s).2.2 := by
  intro n
  induction n with
  | zero => intro s; exact rdOnly_nil
  | succ n ih =>
    intro s
    simp only [eraseWait]
    split
    · exact waitGo_rdOnly d _ _ _ _
    · exact rdOnly_append (waitGo_rdOnly d _ _ _ _) (ih _)

lemma memcmpGo_rdOnly {σ : Type} (d : Dev σ) (destAddr : Nat) (block : Nat → Nat) :
    ∀ (n i : Nat) (s : σ) (acc : Bool), rdOnly (memcmpGo d destAddr block n i s acc).2.2 := by
  intro n
  induction n with
  | zero => intro i s acc; exact rdOnly_nil
  | succ n ih =>
    intro i s acc
    simp only [memcmpGo]
    intro e he
    rcases List.mem_cons.mp he with rfl | h
    · rfl
    · exact ih _ _ _ e h

lemma memcmpBlock_rdOnly {σ : Type} (d : Dev σ) (s : σ) (destAddr : Nat)
    (block : Nat → Nat) : rdOnly (memcmpBlock d s destAddr block).2.2 :=
  memcmpGo_rdOnly d destAddr block 4096 0 s true

lemma overlapGo_rdOnly {σ : Type} (d : Dev σ) (D F E : Nat) :
    ∀ (fuel curr : Nat) (s : σ), rdOnly (overlapGo d D F E fuel curr s).2.2 := by
  intro fuel
  induction fuel with
  | zero => intro curr s; exact rdOnly_nil
  | succ fuel ih =>
    intro curr s
    simp only [overlapGo]
    split
    · split
      · exact ih _ _
      · split
        · intro e he
          rcases List.mem_cons.mp he with rfl | h
          · rfl
          · rcases List.mem_singleton.mp h with rfl
            rfl
        · refine rdOnly_append ?_ (ih _ _)
          intro e he
          rcases List.mem_cons.mp he with rfl | h
          · rfl
          · rcases List.mem_singleton.mp h with rfl
            rfl
    · exact rdOnly_nil

lemma haveOverlappingBioses_rdOnly {σ : Type} (d : Dev σ) (s : σ) (S D L : Nat) :
    rdOnly (HaveOverlappingBioses d s S D L).2.2 := by
  unfold HaveOverlappingBioses
  generalize (L / 16) % 65536 = F
  generalize (S + 0x800) % 65536 = E
  generalize (65536 : Nat) = fuel
  exact overlapGo_rdOnly d D F E fuel S s

/-- Every event of `EraseBlock` is a read, or a write to one of the two
unlock offsets of the command window, or the 0x30 erase command written to
the block base. -/
lemma eraseBlock_events {σ : Type} (d : Dev σ) (s : σ) (seqSeg destAddr tlc : Nat) :
    ∀ e ∈ (EraseBlock d s seqSeg destAddr tlc).2.2,
      e.isRd = true ∨ ∃ v, e = Event.wr (seqSeg * 16 + 0x5555) v ∨
        e = Event.wr (seqSeg * 16 + 0x2AAA) v ∨ e = Event.wr destAddr v := by
  intro e he
  simp only [EraseBlock, List.append_eq] at he
  rcases List.mem_append.mp he with h | h
  · simp only [List.mem_cons, List.mem_singleton] at h
    rcases h with rfl | rfl | rfl | rfl | rfl | rfl | h
    · exact Or.inr ⟨0xAA, Or.inl rfl⟩
    · exact Or.inr ⟨0x55, Or.inr (Or.inl rfl)⟩
    · exact Or.inr ⟨0x80, Or.inl rfl⟩
    · exact Or.inr ⟨0xAA, Or.inl rfl⟩
    · exact Or.inr ⟨0x55, Or.inr (Or.inl rfl)⟩
    · exact Or.inr ⟨0x30, Or.inr (Or.inr rfl)⟩
    · simp at h
  · exact Or.inl (eraseWait_rdOnly d destAddr tlc 1163 _ e h)

/-- Every event of the byte-program loop from index `i` with `n` bytes to
go is a read, an unlock write, or the data write of byte `j ∈ [i, i+n)`
with exactly the source value. -/
lemma programGo_events {σ : Type} (d : Dev σ) (seqSeg destAddr : Nat)
    (src : Nat → Nat) (tlc : Nat) :
    ∀ (n i : Nat) (s : σ), ∀ e ∈ (programGo d seqSeg destAddr src tlc n i s).2.2,
      e.isRd = true ∨ (∃ v, e = Event.wr (seqSeg * 16 + 0x5555) v ∨
          e = Event.wr (seqSeg * 16 + 0x2AAA) v) ∨
        ∃ j, i ≤ j ∧ j < i + n ∧ e = Event.wr (destAddr + j) (src j) := by
  intro n
  induction n with
  | zero => intro i s e he; simp [programGo] at he
  | succ n ih =>
    intro i s e he
    simp only [programGo] at he
    split at he
    · rcases List.mem_append.mp he with h0 | hrec
      · rcases List.mem_append.mp h0 with h | h
        · simp only [List.mem_cons, List.not_mem_nil, or_false] at h
          rcases h with rfl | rfl | rfl | rfl
          · exact Or.inr (Or.inl ⟨0xAA, Or.inl rfl⟩)
          · exact Or.inr (Or.inl ⟨0x55, Or.inr rfl⟩)
          · exact Or.inr (Or.inl ⟨0xA0, Or.inl rfl⟩)
          · exact Or.inr (Or.inr ⟨i, le_refl _, by omega, rfl⟩)
        · exact Or.inl (waitGo_rdOnly d _ _ _ _ e h)
      · rcases ih (i + 1) _ e hrec with h2 | h2 | ⟨j, hj1, hj2, hj3⟩
        · exact Or.inl h2
        · exact Or.inr (Or.inl h2)
        · exact Or.inr (Or.inr ⟨j, by omega, by omega, hj3⟩)
    · rcases List.mem_append.mp he with h | h
      · simp only [List.mem_cons, List.not_mem_nil, or_false] at h
        rcases h with rfl | rfl | rfl | rfl
        · exact Or.inr (Or.inl ⟨0xAA, Or.inl rfl⟩)
        · exact Or.inr (Or.inl ⟨0x55, Or.inr rfl⟩)
        · exact Or.inr (Or.inl ⟨0xA0, Or.inl rfl⟩)
        · exact Or.inr (Or.inr ⟨i, le_refl _, by omega, rfl⟩)
      · exact Or.inl (waitGo_rdOnly d _ _ _ _ e h)

/-- If the byte-program loop succeeds, the data write of every byte in
`[i, i+n)` with its source value is in the trace. -/
lemma programGo_success_writes {σ : Type} (d : Dev σ) (seqSeg destAddr : Nat)
    (src : Nat → Nat) (tlc : Nat) :
    ∀ (n i : Nat) (s : σ), (programGo d seqSeg destAddr src tlc n i s).1 = true →
      ∀ j, i ≤ j → j < i + n →
        Event.wr (destAddr + j) (src j) ∈ (programGo d seqSeg destAddr src tlc n i s).2.2 := by
  intro n
  induction n with
  | zero => intro i s hres j hj1 hj2; omega
  | succ n ih =>
    intro i s hres j hj1 hj2
    simp only [programGo] at hres ⊢
    split at hres
    next hw =>
      rw [if_pos hw]
      show _ ∈ _ ++ _
      rcases Nat.eq_or_lt_of_le hj1 with rfl | hgt
      · refine List.mem_append.mpr (Or.inl ?_)
        show _ ∈ _ ++ _
        exact List.mem_append.mpr (Or.inl (by simp))
      · exact List.mem_append.mpr (Or.inr (ih (i + 1) _ hres j (by omega) (by omega)))
    next hw =>
      exact absurd hres (by simp)

lemma Event.isRd_isInt {e : Event} (h : e.isRd = true) : e.isInt = false := by
  cases e <;> simp_all [Event.isRd, Event.isInt]

lemma eraseBlock_noInt {σ : Type} (d : Dev σ) (s : σ) (seqSeg destAddr tlc : Nat) :
    noIntEvents (EraseBlock d s seqSeg destAddr tlc).2.2 := by
  intro e he
  rcases eraseBlock_events d s seqSeg destAddr tlc e he with h | ⟨v, h | h | h⟩
  · exact Event.isRd_isInt h
  · subst h; rfl
  · subst h; rfl
  · subst h; rfl

lemma programGo_noInt {σ : Type} (d : Dev σ) (seqSeg destAddr : Nat)
    (src : Nat → Nat) (tlc n i : Nat) (s : σ) :
    noIntEvents (programGo d seqSeg destAddr src tlc n i s).2.2 := by
  intro e he
  rcases programGo_events d seqSeg destAddr src tlc n i s e he with
    h | ⟨v, h | h⟩ | ⟨j, -, -, h⟩
  · exact Event.isRd_isInt h
  · subst h; rfl
  · subst h; rfl
  · subst h; rfl

lemma programBlock_noInt {σ : Type} (d : Dev σ) (s : σ) (seqSeg : Nat)
    (src : Nat → Nat) (destAddr tlc : Nat) :
    noIntEvents (ProgramBlock d s seqSeg src destAddr tlc).2.2 := by
  unfold ProgramBlock
  generalize (4096 : Nat) = n
  exact programGo_noInt d seqSeg destAddr src tlc n 0 s

lemma flashGo_noInt {σ : Type} (d : Dev σ) (seqSeg tlc : Nat) :
    ∀ (blocks : List (Nat → Nat)) (ds acc : Nat) (s : σ),
      noIntEvents (flashGo d seqSeg tlc blocks ds acc s).2.2 := by
  intro blocks
  induction blocks with
  | nil => intro ds acc s e he; simp [flashGo] at he
  | cons b rest ih =>
    intro ds acc s
    simp only [flashGo]
    split
    · exact noIntEvents_append (memcmpBlock_rdOnly d _ _ _).noInt (ih _ _ _)
    · split
      · split
        · exact noIntEvents_append
            (noIntEvents_append
              (noIntEvents_append (memcmpBlock_rdOnly d _ _ _).noInt
                (eraseBlock_noInt d _ _ _ _))
              (programBlock_noInt d _ _ _ _ _))
            (ih _ _ _)
        · exact noIntEvents_append
            (noIntEvents_append (memcmpBlock_rdOnly d _ _ _).noInt
              (eraseBlock_noInt d _ _ _ _))
            (programBlock_noInt d _ _ _ _ _)
      · exact noIntEvents_append (memcmpBlock_rdOnly d _ _ _).noInt
          (eraseBlock_noInt d _ _ _ _)

/-! ### Interrupt balance (claim C9) -/

/-- The trace of `FlashRom` is the block loop's trace bracketed by the
`cli` of `DisableInterrupts` and the `sti` of `EnableInterrupts`, on every
path (normal exit and both timeout breaks). -/
lemma flashRom_trace {σ : Type} (d : Dev σ) (s : σ) (seqSeg destSeg : Nat)
    (blocks : List (Nat → Nat)) (tlc : Nat) :
    (FlashRom d s seqSeg destSeg blocks tlc).2.2 =
      Event.cli :: (flashGo d seqSeg tlc blocks destSeg 0 s).2.2 ++ [Event.sti] := by
  simp only [FlashRom]
  split <;> rfl

lemma intFold_noInt (tr : List Event) (h : noIntEvents tr) :
    ∀ b : Bool, tr.foldl (fun st e => match e with
      | Event.cli => false
      | Event.sti => true
      | _ => st) b = b := by
  induction tr with
  | nil => intro b; rfl
  | cons e tr ih =>
    intro b
    rw [List.foldl_cons]
    have he := h e (List.mem_cons_self _ _)
    have h2 : noIntEvents tr := fun x hx => h x (List.mem_cons_of_mem _ hx)
    cases e
    · exact ih h2 b
    · exact ih h2 b
    · exact absurd he (by simp [Event.isInt])
    · exact absurd he (by simp [Event.isInt])

/-- C9: on every reachable path of `DetectDeviceType` and `FlashRom`, for
any device and any arguments, the interrupt-flag events of the trace are
exactly `[cli, sti]` — each `DisableInterrupts` is followed by the
matching `EnableInterrupts` before the function returns — and replaying
the trace leaves interrupts enabled at exit. -/
theorem claim9_interrupt_balance {σ : Type} (d : Dev σ) (s s2 : σ)
    (seqSeg destSeg : Nat) (blocks : List (Nat → Nat)) (tlc : Nat) :
    ((DetectDeviceType d s seqSeg destSeg).2.2.filter Event.isInt =
        [Event.cli, Event.sti] ∧
      intEnabledAfter (DetectDeviceType d s seqSeg destSeg).2.2 = true) ∧
    ((FlashRom d s2 seqSeg destSeg blocks tlc).2.2.filter Event.isInt =
        [Event.cli, Event.sti] ∧
      intEnabledAfter (FlashRom d s2 seqSeg destSeg blocks tlc).2.2 = true) := by
  refine ⟨⟨?_, ?_⟩, ?_, ?_⟩
  · simp [DetectDeviceType, Event.isInt]
  · simp [DetectDeviceType, intEnabledAfter]
  · rw [flashRom_trace]
    rw [List.filter_append, List.filter_cons,
      noIntEvents_filter_eq_nil (flashGo_noInt d seqSeg tlc blocks destSeg 0 s2)]
    simp [Event.isInt]
  · rw [flashRom_trace]
    unfold intEnabledAfter
    rw [List.foldl_append]
    simp

/-! ### Frame property of a timed-out FlashRom (claim C10) -/

/-- Byte base address of destination block `j` for a `FlashRom` run that
started at segment `ds`: the loop adds `0x100` to the `unsigned short`
destination segment per block. -/
def blockBase (ds j : Nat) : Nat := ((ds + 256 * j) % 65536) * 16

/-- `a` lies in the 4 KiB byte range of destination block `j`. -/
def inBlock (ds j a : Nat) : Prop :=
  blockBase ds j ≤ a ∧ a < blockBase ds j + 4096

/-- `a` is one of the two unlock-cycle offsets inside the command window. -/
def unlockAddr (seqSeg a : Nat) : Prop :=
  a = seqSeg * 16 + 0x5555 ∨ a = seqSeg * 16 + 0x2AAA

/-- Distinct destination blocks of one run occupy disjoint byte ranges:
block bases are spaced by multiples of 4096 bytes even across the
`unsigned short` segment wrap-around. -/
lemma inBlock_inj (ds j j2 a : Nat) (hj : j < 256) (hj2 : j2 < 256)
    (h1 : inBlock ds j a) (h2 : inBlock ds j2 a) : j = j2 := by
  unfold inBlock blockBase at h1 h2
  omega

lemma blockBase_shift (ds j : Nat) :
    blockBase ((ds + 256) % 65536) j = blockBase ds (j + 1) := by
  unfold blockBase
  omega

lemma inBlock_shift (ds j a : Nat) :
    inBlock ((ds + 256) % 65536) j a ↔ inBlock ds (j + 1) a := by
  unfold inBlock
  rw [blockBase_shift]

lemma wr_not_in_rdOnly {tr : List Event} (h : rdOnly tr) {a v : Nat}
    (hmem : Event.wr a v ∈ tr) : False := by
  have := h _ hmem
  simp [Event.isRd] at this

lemma programBlock_events {σ : Type} (d : Dev σ) (s : σ) (seqSeg : Nat)
    (src : Nat → Nat) (destAddr tlc : Nat) :
    ∀ e ∈ (ProgramBlock d s seqSeg src destAddr tlc).2.2,
      e.isRd = true ∨ (∃ v, e = Event.wr (seqSeg * 16 + 0x5555) v ∨
          e = Event.wr (seqSeg * 16 + 0x2AAA) v) ∨
        ∃ j, j < 4096 ∧ e = Event.wr (destAddr + j) (src j) := by
  intro e he
  unfold ProgramBlock at he
  rcases programGo_events d seqSeg destAddr src tlc 4096 0 s e he with
    h | h | ⟨j, -, hj2, hj3⟩
  · exact Or.inl h
  · exact Or.inr (Or.inl h)
  · exact Or.inr (Or.inr ⟨j, by omega, hj3⟩)

lemma programBlock_success_writes {σ : Type} (d : Dev σ) (s : σ) (seqSeg : Nat)
    (src : Nat → Nat) (destAddr tlc : Nat)
    (h : (ProgramBlock d s seqSeg src destAddr tlc).1 = true) :
    ∀ i, i < 4096 →
      Event.wr (destAddr + i) (src i) ∈ (ProgramBlock d s seqSeg src destAddr tlc).2.2 := by
  intro i hi
  unfold ProgramBlock at h ⊢
  exact programGo_success_writes d seqSeg destAddr src tlc 4096 0 s h i (by omega) (by omega)

/-- The write events of `EraseBlock` and `ProgramBlock` on the current
block all target an unlock offset or a byte of block 0 of the current
destination segment. -/
lemma eraseBlock_wr_frame {σ : Type} (d : Dev σ) (s : σ) (seqSeg ds tlc : Nat)
    (hds : ds < 65536) {a v : Nat}
    (hmem : Event.wr a v ∈ (EraseBlock d s seqSeg (ds * 16) tlc).2.2) :
    unlockAddr seqSeg a ∨ inBlock ds 0 a := by
  have hb0 : blockBase ds 0 = ds * 16 := by unfold blockBase; omega
  rcases eraseBlock_events d s seqSeg (ds * 16) tlc _ hmem with h | ⟨v2, h | h | h⟩
  · simp [Event.isRd] at h
  · cases h; exact Or.inl (Or.inl rfl)
  · cases h; exact Or.inl (Or.inr rfl)
  · cases h; exact Or.inr (by unfold inBlock; omega)

lemma programBlock_wr_frame {σ : Type} (d : Dev σ) (s : σ) (seqSeg ds : Nat)
    (src : Nat → Nat) (tlc : Nat) (hds : ds < 65536) {a v : Nat}
    (hmem : Event.wr a v ∈ (ProgramBlock d s seqSeg src (ds * 16) tlc).2.2) :
    unlockAddr seqSeg a ∨ inBlock ds 0 a := by
  have hb0 : blockBase ds 0 = ds * 16 := by unfold blockBase; omega
  rcases programBlock_events d s seqSeg src (ds * 16) tlc _ hmem with
    h | ⟨v2, h | h⟩ | ⟨j, hj, h⟩
  · simp [Event.isRd] at h
  · cases h; exact Or.inl (Or.inl rfl)
  · cases h; exact Or.inl (Or.inr rfl)
  · cases h; exact Or.inr (by unfold inBlock; omega)

/-- If the block loop of `FlashRom` exits on the error path, there is a
block index `k` (the one whose erase or program timed out) such that every
write of the whole loop trace targets an unlock offset or a block of index
`≤ k`, and every block before `k` either received its full set of data
writes (each byte with its image value) or received no write at all beyond
possible unlock cycles. -/
lemma flashGo_timeout {σ : Type} (d : Dev σ) (seqSeg tlc : Nat) :
    ∀ (blocks : List (Nat → Nat)) (ds acc : Nat) (s : σ),
      ds < 65536 → blocks.length ≤ 64 →
      (flashGo d seqSeg tlc blocks ds acc s).1 = none →
      ∃ k, k < blocks.length ∧
        (∀ a v, Event.wr a v ∈ (flashGo d seqSeg tlc blocks ds acc s).2.2 →
          unlockAddr seqSeg a ∨ ∃ j, j ≤ k ∧ inBlock ds j a) ∧
        (∀ j, j < k →
          (∀ i, i < 4096 →
            Event.wr (blockBase ds j + i) ((blocks.getD j zeroBlock) i) ∈
              (flashGo d seqSeg tlc blocks ds acc s).2.2) ∨
          (∀ a v, Event.wr a v ∈ (flashGo d seqSeg tlc blocks ds acc s).2.2 →
            ¬ inBlock ds j a ∨ unlockAddr seqSeg a)) := by
  intro blocks
  induction blocks with
  | nil =>
    intro ds acc s hds hlen hres
    simp [flashGo] at hres
  | cons b rest ih =>
    intro ds acc s hds hlen hres
    have hlen2 : rest.length ≤ 64 := by
      simp only [List.length_cons] at hlen; omega
    have hds2 : (ds + 256) % 65536 < 65536 := by omega
    simp only [flashGo] at hres ⊢
    by_cases hc : (memcmpBlock d s (ds * 16) b).1 = true
    · rw [if_pos hc] at hres ⊢
      dsimp only at hres ⊢
      obtain ⟨k, hk, hA, hC⟩ := ih ((ds + 256) % 65536) acc _ hds2 hlen2 hres
      refine ⟨k + 1, by simp only [List.length_cons]; omega, ?_, ?_⟩
      · intro a v hmem
        rcases List.mem_append.mp hmem with h | h
        · exact absurd (wr_not_in_rdOnly (memcmpBlock_rdOnly d s (ds * 16) b) h) id
        · rcases hA a v h with hu | ⟨j, hj, hin⟩
          · exact Or.inl hu
          · exact Or.inr ⟨j + 1, by omega, (inBlock_shift ds j a).mp hin⟩
      · intro j hj
        cases j with
        | zero =>
          refine Or.inr ?_
          intro a v hmem
          rcases List.mem_append.mp hmem with h | h
          · exact absurd (wr_not_in_rdOnly (memcmpBlock_rdOnly d s (ds * 16) b) h) id
          · rcases hA a v h with hu | ⟨j2, hj2, hin⟩
            · exact Or.inr hu
            · refine Or.inl fun hin0 => ?_
              have := inBlock_inj ds 0 (j2 + 1) a (by omega) (by omega) hin0
                ((inBlock_shift ds j2 a).mp hin)
              omega
        | succ j2 =>
          rcases hC j2 (by omega) with hprog | hnone
          · refine Or.inl fun i hi => ?_
            refine List.mem_append.mpr (Or.inr ?_)
            have := hprog i hi
            rw [blockBase_shift] at this
            simpa using this
          · refine Or.inr fun a v hmem => ?_
            rcases List.mem_append.mp hmem with h | h
            · exact absurd (wr_not_in_rdOnly (memcmpBlock_rdOnly d s (ds * 16) b) h) id
            · rcases hnone a v h with hn | hu
              · exact Or.inl fun hin => hn ((inBlock_shift ds j2 a).mpr hin)
              · exact Or.inr hu
    · rw [if_neg hc] at hres ⊢
      by_cases he : (EraseBlock d (memcmpBlock d s (ds * 16) b).2.1 seqSeg (ds * 16) tlc).1 = true
      · rw [if_pos he] at hres ⊢
        by_cases hp : (ProgramBlock d (EraseBlock d (memcmpBlock d s (ds * 16) b).2.1 seqSeg
            (ds * 16) tlc).2.1 seqSeg b (ds * 16) tlc).1 = true
        · rw [if_pos hp] at hres ⊢
          dsimp only at hres ⊢
          obtain ⟨k, hk, hA, hC⟩ := ih ((ds + 256) % 65536) (acc + 1) _ hds2 hlen2 hres
          have hmem3 : ∀ {a v : Nat},
              Event.wr a v ∈ (memcmpBlock d s (ds * 16) b).2.2 ++
                  (EraseBlock d (memcmpBlock d s (ds * 16) b).2.1 seqSeg (ds * 16) tlc).2.2 ++
                  (ProgramBlock d (EraseBlock d (memcmpBlock d s (ds * 16) b).2.1 seqSeg
                    (ds * 16) tlc).2.1 seqSeg b (ds * 16) tlc).2.2 →
              unlockAddr seqSeg a ∨ inBlock ds 0 a := by
            intro a v hmem
            rcases List.mem_append.mp hmem with h2 | h2
            · rcases List.mem_append.mp h2 with h3 | h3
              · exact absurd (wr_not_in_rdOnly (memcmpBlock_rdOnly d s (ds * 16) b) h3) id
              · exact eraseBlock_wr_frame d _ seqSeg ds tlc hds h3
            · exact programBlock_wr_frame d _ seqSeg ds b tlc hds h2
          refine ⟨k + 1, by simp only [List.length_cons]; omega, ?_, ?_⟩
          · intro a v hmem
            rcases List.mem_append.mp hmem with h | h
            · rcases hmem3 h with hu | hin
              · exact Or.inl hu
              · exact Or.inr ⟨0, by omega, hin⟩
            · rcases hA a v h with hu | ⟨j, hj, hin⟩
              · exact Or.inl hu
              · exact Or.inr ⟨j + 1, by omega, (inBlock_shift ds j a).mp hin⟩
          · intro j hj
            cases j with
            | zero =>
              refine Or.inl fun i hi => ?_
              refine List.mem_append.mpr (Or.inl (List.mem_append.mpr (Or.inr ?_)))
              have hb0 : blockBase ds 0 = ds * 16 := by unfold blockBase; omega
              rw [hb0]
              simpa using programBlock_success_writes d _ seqSeg b (ds * 16) tlc hp i hi
            | succ j2 =>
              rcases hC j2 (by omega) with hprog | hnone
              · refine Or.inl fun i hi => ?_
                refine List.mem_append.mpr (Or.inr ?_)
                have := hprog i hi
                rw [blockBase_shift] at this
                simpa using this
              · refine Or.inr fun a v hmem => ?_
                rcases List.mem_append.mp hmem with h | h
                · rcases hmem3 h with hu | hin
                  · exact Or.inr hu
                  · refine Or.inl fun hinj => ?_
                    have := inBlock_inj ds 0 (j2 + 1) a (by omega) (by omega) hin hinj
                    omega
                · rcases hnone a v h with hn | hu
                  · exact Or.inl fun hin => hn ((inBlock_shift ds j2 a).mpr hin)
                  · exact Or.inr hu
        · rw [if_neg hp] at hres ⊢
          refine ⟨0, by simp, ?_, ?_⟩
          · intro a v hmem
            dsimp only at hmem
            rcases List.mem_append.mp hmem with h2 | h2
            · rcases List.mem_append.mp h2 with h3 | h3
              · exact absurd (wr_not_in_rdOnly (memcmpBlock_rdOnly d s (ds * 16) b) h3) id
              · rcases eraseBlock_wr_frame d _ seqSeg ds tlc hds h3 with hu | hin
                · exact Or.inl hu
                · exact Or.inr ⟨0, le_refl _, hin⟩
            · rcases programBlock_wr_frame d _ seqSeg ds b tlc hds h2 with hu | hin
              · exact Or.inl hu
              · exact Or.inr ⟨0, le_refl _, hin⟩
          · intro j hj
            omega
      · rw [if_neg he] at hres ⊢
        refine ⟨0, by simp, ?_, ?_⟩
        · intro a v hmem
          dsimp only at hmem
          rcases List.mem_append.mp hmem with h2 | h2
          · exact absurd (wr_not_in_rdOnly (memcmpBlock_rdOnly d s (ds * 16) b) h2) id
          · rcases eraseBlock_wr_frame d _ seqSeg ds tlc hds h2 with hu | hin
            · exact Or.inl hu
            · exact Or.inr ⟨0, le_refl _, hin⟩
        · intro j hj
          omega

/-! ### Evaluation on pure devices -/

lemma pureDev_read (m : Nat → Nat) (s : Unit) (a : Nat) :
    (pureDev m).read s a = (m a, s) := rfl

lemma pureDev_write (m : Nat → Nat) (s : Unit) (a v : Nat) :
    (pureDev m).write s a v = s := rfl

lemma memcmpGo_pure (m : Nat → Nat) (a : Nat) (blk : Nat → Nat) :
    ∀ (n i : Nat) (s : Unit) (acc : Bool),
      (memcmpGo (pureDev m) a blk n i s acc).1 = true ↔
        (acc = true ∧ ∀ j, i ≤ j → j < i + n → m (a + j) = blk j) := by
  intro n
  induction n with
  | zero =>
    intro i s acc
    simp only [memcmpGo]
    constructor
    · intro h
      exact ⟨h, fun j h1 h2 => absurd h2 (by omega)⟩
    · exact fun h => h.1
  | succ n ih =>
    intro i s acc
    simp only [memcmpGo, pureDev_read]
    rw [ih]
    simp only [Bool.and_eq_true, decide_eq_true_eq]
    constructor
    · rintro ⟨⟨hacc, h1⟩, h2⟩
      refine ⟨hacc, fun j hj1 hj2 => ?_⟩
      rcases Nat.eq_or_lt_of_le hj1 with rfl | hgt
      · exact h1
      · exact h2 j (by omega) (by omega)
    · rintro ⟨hacc, h⟩
      exact ⟨⟨hacc, h i (le_refl _) (by omega)⟩,
        fun j hj1 hj2 => h j (by omega) (by omega)⟩

lemma memcmpBlock_pure (m : Nat → Nat) (a : Nat) (blk : Nat → Nat) (s : Unit) :
    (memcmpBlock (pureDev m) s a blk).1 = true ↔
      ∀ j, j < 4096 → m (a + j) = blk j := by
  unfold memcmpBlock
  rw [memcmpGo_pure m a blk 4096 0 s true]
  constructor
  · intro h j hj; exact h.2 j (by omega) (by omega)
  · intro h; exact ⟨rfl, fun j _ hj => h j (by omega)⟩

lemma waitGo_pure_noMatch (m : Nat → Nat) (addr value : Nat) (h : ¬ m addr = value) :
    ∀ (n : Nat) (s : Unit), (waitGo (pureDev m) addr value n s).1 = false := by
  intro n
  induction n with
  | zero => intro s; rfl
  | succ n ih =>
    intro s
    simp only [waitGo, pureDev]
    rw [if_neg h]
    exact ih _

lemma eraseWait_pure_fail (m : Nat → Nat) (destAddr tlc : Nat)
    (h : ¬ m destAddr = 0xFF) :
    ∀ (n : Nat) (s : Unit), (eraseWait (pureDev m) destAddr tlc n s).1 = false := by
  intro n
  induction n with
  | zero => intro s; rfl
  | succ n ih =>
    intro s
    simp only [eraseWait, WaitForValue]
    rw [waitGo_pure_noMatch m destAddr 0xFF h]
    simp only [Bool.false_eq_true, if_false]
    exact ih _

lemma eraseBlock_pure_fail (m : Nat → Nat) (seqSeg destAddr tlc : Nat)
    (h : ¬ m destAddr = 0xFF) (s : Unit) :
    (EraseBlock (pureDev m) s seqSeg destAddr tlc).1 = false := by
  unfold EraseBlock
  exact eraseWait_pure_fail m destAddr tlc h 1163 _

/-! Step equations for the `FlashRom` block loop, one per control path.
With all parameters generic they rewrite without forcing any evaluation. -/

lemma flashGo_cons_match {σ : Type} (d : Dev σ) (seqSeg tlc : Nat) (b : Nat → Nat)
    (rest : List (Nat → Nat)) (ds acc : Nat) (s : σ)
    (hc : (memcmpBlock d s (ds * 16) b).1 = true) :
    flashGo d seqSeg tlc (b :: rest) ds acc s =
      ((flashGo d seqSeg tlc rest ((ds + 256) % 65536) acc
          (memcmpBlock d s (ds * 16) b).2.1).1,
        (flashGo d seqSeg tlc rest ((ds + 256) % 65536) acc
          (memcmpBlock d s (ds * 16) b).2.1).2.1,
        (memcmpBlock d s (ds * 16) b).2.2 ++
          (flashGo d seqSeg tlc rest ((ds + 256) % 65536) acc
            (memcmpBlock d s (ds * 16) b).2.1).2.2) := by
  simp only [flashGo]
  rw [if_pos hc]

lemma flashGo_cons_eraseFail {σ : Type} (d : Dev σ) (seqSeg tlc : Nat) (b : Nat → Nat)
    (rest : List (Nat → Nat)) (ds acc : Nat) (s : σ)
    (hc : ¬ (memcmpBlock d s (ds * 16) b).1 = true)
    (he : ¬ (EraseBlock d (memcmpBlock d s (ds * 16) b).2.1 seqSeg (ds * 16) tlc).1 = true) :
    flashGo d seqSeg tlc (b :: rest) ds acc s =
      (none, (EraseBlock d (memcmpBlock d s (ds * 16) b).2.1 seqSeg (ds * 16) tlc).2.1,
        (memcmpBlock d s (ds * 16) b).2.2 ++
          (EraseBlock d (memcmpBlock d s (ds * 16) b).2.1 seqSeg (ds * 16) tlc).2.2) := by
  simp only [flashGo]
  rw [if_neg hc, if_neg he]

lemma flashGo_cons_success {σ : Type} (d : Dev σ) (seqSeg tlc : Nat) (b : Nat → Nat)
    (rest : List (Nat → Nat)) (ds acc : Nat) (s : σ)
    (hc : ¬ (memcmpBlock d s (ds * 16) b).1 = true)
    (he : (EraseBlock d (memcmpBlock d s (ds * 16) b).2.1 seqSeg (ds * 16) tlc).1 = true)
    (hp : (ProgramBlock d (EraseBlock d (memcmpBlock d s (ds * 16) b).2.1 seqSeg
        (ds * 16) tlc).2.1 seqSeg b (ds * 16) tlc).1 = true) :
    flashGo d seqSeg tlc (b :: rest) ds acc s =
      ((flashGo d seqSeg tlc rest ((ds + 256) % 65536) (acc + 1)
          (ProgramBlock d (EraseBlock d (memcmpBlock d s (ds * 16) b).2.1 seqSeg
            (ds * 16) tlc).2.1 seqSeg b (ds * 16) tlc).2.1).1,
        (flashGo d seqSeg tlc rest ((ds + 256) % 65536) (acc + 1)
          (ProgramBlock d (EraseBlock d (memcmpBlock d s (ds * 16) b).2.1 seqSeg
            (ds * 16) tlc).2.1 seqSeg b (ds * 16) tlc).2.1).2.1,
        (memcmpBlock d s (ds * 16) b).2.2 ++
          (EraseBlock d (memcmpBlock d s (ds * 16) b).2.1 seqSeg (ds * 16) tlc).2.2 ++
          (ProgramBlock d (EraseBlock d (memcmpBlock d s (ds * 16) b).2.1 seqSeg
            (ds * 16) tlc).2.1 seqSeg b (ds * 16) tlc).2.2 ++
          (flashGo d seqSeg tlc rest ((ds + 256) % 65536) (acc + 1)
            (ProgramBlock d (EraseBlock d (memcmpBlock d s (ds * 16) b).2.1 seqSeg
              (ds * 16) tlc).2.1 seqSeg b (ds * 16) tlc).2.1).2.2) := by
  simp only [flashGo]
  rw [if_neg hc, if_pos he, if_pos hp]

lemma flashRom_result_neg {σ : Type} (d : Dev σ) (s : σ) (seqSeg destSeg : Nat)
    (blocks : List (Nat → Nat)) (tlc : Nat)
    (h : (FlashRom d s seqSeg destSeg blocks tlc).1 = -1) :
    (flashGo d seqSeg tlc blocks destSeg 0 s).1 = none := by
  simp only [FlashRom] at h
  split at h
  next heq => exact heq
  next n heq =>
    exfalso
    have : ((n : Int), (flashGo d seqSeg tlc blocks destSeg 0 s).2.1,
        Event.cli :: (flashGo d seqSeg tlc blocks destSeg 0 s).2.2 ++ [Event.sti]).1 =
          (n : Int) := rfl
    rw [this] at h
    omega

lemma wr_mem_flashRom {σ : Type} (d : Dev σ) (s : σ) (seqSeg destSeg : Nat)
    (blocks : List (Nat → Nat)) (tlc : Nat) (a v : Nat) :
    Event.wr a v ∈ (FlashRom d s seqSeg destSeg blocks tlc).2.2 ↔
      Event.wr a v ∈ (flashGo d seqSeg tlc blocks destSeg 0 s).2.2 := by
  rw [flashRom_trace]
  simp

/-- C10: whenever `FlashRom` returns -1 (erase or program timeout at some
block `k`), every write issued during the call targets an unlock offset of
the command window or a byte of a destination block of index at most `k`;
in particular no erase command and no program write was issued to any
destination block of index greater than `k`; and every block before `k`
either received the complete set of program writes carrying exactly its
image bytes, or received no write at all beyond possible unlock cycles
(its compare had matched). -/
theorem claim10_timeout_frame {σ : Type} (d : Dev σ) (s : σ) (seqSeg destSeg : Nat)
    (blocks : List (Nat → Nat)) (tlc : Nat)
    (hds : destSeg < 65536) (hlen : blocks.length ≤ 64)
    (hres : (FlashRom d s seqSeg destSeg blocks tlc).1 = -1) :
    ∃ k, k < blocks.length ∧
      (∀ a v, Event.wr a v ∈ (FlashRom d s seqSeg destSeg blocks tlc).2.2 →
        unlockAddr seqSeg a ∨ ∃ j, j ≤ k ∧ inBlock destSeg j a) ∧
      (∀ j, k < j → j < blocks.length →
        ∀ a v, Event.wr a v ∈ (FlashRom d s seqSeg destSeg blocks tlc).2.2 →
          inBlock destSeg j a → unlockAddr seqSeg a) ∧
      (∀ j, j < k →
        (∀ i, i < 4096 →
          Event.wr (blockBase destSeg j + i) ((blocks.getD j zeroBlock) i) ∈
            (FlashRom d s seqSeg destSeg blocks tlc).2.2) ∨
        (∀ a v, Event.wr a v ∈ (FlashRom d s seqSeg destSeg blocks tlc).2.2 →
          ¬ inBlock destSeg j a ∨ unlockAddr seqSeg a)) := by
  obtain ⟨k, hk, hA, hC⟩ := flashGo_timeout d seqSeg tlc blocks destSeg 0 s hds hlen
    (flashRom_result_neg d s seqSeg destSeg blocks tlc hres)
  refine ⟨k, hk, ?_, ?_, ?_⟩
  · intro a v hmem
    exact hA a v ((wr_mem_flashRom d s seqSeg destSeg blocks tlc a v).mp hmem)
  · intro j hj1 hj2 a v hmem hin
    rcases hA a v ((wr_mem_flashRom d s seqSeg destSeg blocks tlc a v).mp hmem) with
      hu | ⟨j2, hj3, hin2⟩
    · exact hu
    · exfalso
      have := inBlock_inj destSeg j j2 a (by omega) (by omega) hin hin2
      omega
  · intro j hj
    rcases hC j hj with hprog | hnone
    · refine Or.inl fun i hi => ?_
      exact (wr_mem_flashRom d s seqSeg destSeg blocks tlc _ _).mpr (hprog i hi)
    · refine Or.inr fun a v hmem => ?_
      exact hnone a v ((wr_mem_flashRom d s seqSeg destSeg blocks tlc a v).mp hmem)

lemma flashRom_witness10_result :
    (FlashRom (pureDev fun _ => 0) () 0xC800 0xC800 [fun _ => 1] 1).1 = -1 := by
  have hc : ((memcmpBlock (pureDev fun _ => 0) () (0xC800 * 16) (fun _ => 1)).1 = true) ↔
      ∀ j, j < 4096 → (0 : Nat) = 1 :=
    memcmpBlock_pure (fun _ => 0) (0xC800 * 16) (fun _ => 1) ()
  have hcf : ¬ (memcmpBlock (pureDev fun _ => 0) () (0xC800 * 16) (fun _ => 1)).1 = true := by
    intro h
    exact absurd (hc.mp h 0 (by norm_num)) (by norm_num)
  have hef : ∀ s : Unit, ¬ (EraseBlock (pureDev fun _ => 0) s 0xC800 (0xC800 * 16) 1).1 = true := by
    intro s h
    rw [eraseBlock_pure_fail (fun _ => 0) 0xC800 (0xC800 * 16) 1 (by norm_num) s] at h
    exact absurd h (by norm_num)
  have hgo : (flashGo (pureDev fun _ => 0) 0xC800 1 [fun _ => 1] 0xC800 0 ()).1 = none := by
    rw [flashGo_cons_eraseFail (pureDev fun _ => 0) 0xC800 1 (fun _ => 1) [] 0xC800 0 ()
      hcf (hef _)]
  simp only [FlashRom]
  split
  next => rfl
  next n heq =>
    rw [hgo] at heq
    exact absurd heq (by simp)

/-- C10 witness: a device that always reads 0 times out erasing the single
(dirty) block, `FlashRom` returns -1, and the frame theorem applies. -/
theorem claim10_timeout_frame_witness :
    ((0xC800 : Nat) < 65536 ∧ ([fun _ => (1 : Nat)] : List (Nat → Nat)).length ≤ 64 ∧
      (FlashRom (pureDev fun _ => 0) () 0xC800 0xC800 [fun _ => 1] 1).1 = -1) ∧
    (∃ k, k < ([fun _ => (1 : Nat)] : List (Nat → Nat)).length ∧
      (∀ a v, Event.wr a v ∈
          (FlashRom (pureDev fun _ => 0) () 0xC800 0xC800 [fun _ => 1] 1).2.2 →
        unlockAddr 0xC800 a ∨ ∃ j, j ≤ k ∧ inBlock 0xC800 j a) ∧
      (∀ j, k < j → j < ([fun _ => (1 : Nat)] : List (Nat → Nat)).length →
        ∀ a v, Event.wr a v ∈
            (FlashRom (pureDev fun _ => 0) () 0xC800 0xC800 [fun _ => 1] 1).2.2 →
          inBlock 0xC800 j a → unlockAddr 0xC800 a) ∧
      (∀ j, j < k →
        (∀ i, i < 4096 →
          Event.wr (blockBase 0xC800 j + i)
              ((([fun _ => (1 : Nat)] : List (Nat → Nat)).getD j zeroBlock) i) ∈
            (FlashRom (pureDev fun _ => 0) () 0xC800 0xC800 [fun _ => 1] 1).2.2) ∨
        (∀ a v, Event.wr a v ∈
            (FlashRom (pureDev fun _ => 0) () 0xC800 0xC800 [fun _ => 1] 1).2.2 →
          ¬ inBlock 0xC800 j a ∨ unlockAddr 0xC800 a))) :=
  ⟨⟨by norm_num, by simp, flashRom_witness10_result⟩,
    claim10_timeout_frame (pureDev fun _ => 0) () 0xC800 0xC800 [fun _ => 1] 1
      (by norm_num) (by simp) flashRom_witness10_result⟩

/-! ### The idempotent run (claim C7) -/

lemma filter_false_eq_nil {p : Event → Bool} {tr : List Event}
    (h : ∀ e ∈ tr, p e = false) : tr.filter p = [] := by
  rw [List.filter_eq_nil_iff]
  intro e he
  simp [h e he]

lemma detect_wr_filter {σ : Type} (d : Dev σ) (s : σ) (seqSeg destSeg : Nat) :
    (DetectDeviceType d s seqSeg destSeg).2.2.filter Event.isWr =
      [Event.wr (seqSeg * 16 + 0x5555) 0xAA, Event.wr (seqSeg * 16 + 0x2AAA) 0x55,
       Event.wr (seqSeg * 16 + 0x5555) 0x90, Event.wr (seqSeg * 16 + 0x5555) 0xF0] := by
  simp [DetectDeviceType, Event.isWr]

/-- On a pure device whose bytes already equal every destination block,
the block loop compares and skips every block: it returns `numBlocksFlashed
= acc` unchanged and its trace is reads only. -/
lemma flashGo_pure_match (m : Nat → Nat) (seqSeg tlc : Nat) :
    ∀ (blocks : List (Nat → Nat)) (ds acc : Nat) (s : Unit),
      ds < 65536 →
      (∀ k, k < blocks.length → ∀ i, i < 4096 →
        m (((ds + 256 * k) % 65536) * 16 + i) = (blocks.getD k zeroBlock) i) →
      (flashGo (pureDev m) seqSeg tlc blocks ds acc s).1 = some acc ∧
        rdOnly (flashGo (pureDev m) seqSeg tlc blocks ds acc s).2.2 := by
  intro blocks
  induction blocks with
  | nil =>
    intro ds acc s hds hmatch
    exact ⟨rfl, rdOnly_nil⟩
  | cons b rest ih =>
    intro ds acc s hds hmatch
    have hc : (memcmpBlock (pureDev m) s (ds * 16) b).1 = true := by
      rw [memcmpBlock_pure]
      intro j hj
      have := hmatch 0 (by simp) j hj
      simpa [Nat.mod_eq_of_lt hds] using this
    rw [flashGo_cons_match (pureDev m) seqSeg tlc b rest ds acc s hc]
    have hmatch2 : ∀ k, k < rest.length → ∀ i, i < 4096 →
        m ((((ds + 256) % 65536 + 256 * k) % 65536) * 16 + i) =
          (rest.getD k zeroBlock) i := by
      intro k hk i hi
      have := hmatch (k + 1) (by simp; omega) i hi
      have haddr : ((ds + 256) % 65536 + 256 * k) % 65536 =
          (ds + 256 * (k + 1)) % 65536 := by omega
      rw [haddr]
      simpa using this
    obtain ⟨h1, h2⟩ := ih ((ds + 256) % 65536) acc
      (memcmpBlock (pureDev m) s (ds * 16) b).2.1 (by omega) hmatch2
    exact ⟨h1, rdOnly_append (memcmpBlock_rdOnly _ _ _ _) h2⟩

lemma flashRom_pure_match (m : Nat → Nat) (seqSeg destSeg : Nat)
    (blocks : List (Nat → Nat)) (tlc : Nat) (s : Unit)
    (hds : destSeg < 65536)
    (hmatch : ∀ k, k < blocks.length → ∀ i, i < 4096 →
      m (((destSeg + 256 * k) % 65536) * 16 + i) = (blocks.getD k zeroBlock) i) :
    (FlashRom (pureDev m) s seqSeg destSeg blocks tlc).1 = 0 ∧
      ∀ e ∈ (FlashRom (pureDev m) s seqSeg destSeg blocks tlc).2.2, e.isWr = false := by
  obtain ⟨h1, h2⟩ := flashGo_pure_match m seqSeg tlc blocks destSeg 0 s hds hmatch
  constructor
  · simp only [FlashRom]
    split
    next heq => rw [h1] at heq; cases heq
    next n heq =>
      rw [h1] at heq
      have h3 : (0 : Nat) = n := Option.some.inj heq
      rw [← h3]
      norm_num
  · rw [flashRom_trace]
    intro e he
    rcases List.mem_append.mp he with h | h
    · rcases List.mem_cons.mp h with rfl | h3
      · rfl
      · exact h2.noWr e h3
    · rcases List.mem_singleton.mp h with rfl
      rfl

/-- C7 (amended): against a pure device matching every destination block,
a confirmed run with a recognized device ID reaches the flash step,
`FlashRom` returns 0 having issued no write at all (so no erase or program
command and no unlock sequence of its own), the controller reports
"already up to date" and returns success — but the run's trace does
contain write cycles: exactly the four software-ID writes of device
detection, whose entry is an unlock sequence.  The claim's "no unlock
sequences are ever issued during the run" holds only for the flash loop,
not for the whole run (see `claim7_counterexample`). -/
lemma processRom_pure_match (m : Nat → Nat) (destSeg : Nat) (r : LoadResult) (tlc : Nat)
    (hds : destSeg < 65536)
    (hmatch : ∀ k, k < r.romBlocks.length → ∀ i, i < 4096 →
      m (((destSeg + 256 * k) % 65536) * 16 + i) = (r.romBlocks.getD k zeroBlock) i)
    (hdet : (DetectDeviceType (pureDev m) ()
      (CalculateSequenceSeg destSeg r.romSize) destSeg).1.isSome = true) :
    (FlashRom (pureDev m) () (CalculateSequenceSeg destSeg r.romSize) destSeg
        r.romBlocks tlc).1 = 0 ∧
      (∀ e ∈ (FlashRom (pureDev m) () (CalculateSequenceSeg destSeg r.romSize) destSeg
        r.romBlocks tlc).2.2, e.isWr = false) ∧
      (ProcessRom (pureDev m) () destSeg r tlc true).1 = ProcOutcome.upToDate ∧
      (ProcessRom (pureDev m) () destSeg r tlc true).2.2.filter Event.isWr =
        [Event.wr (CalculateSequenceSeg destSeg r.romSize * 16 + 0x5555) 0xAA,
         Event.wr (CalculateSequenceSeg destSeg r.romSize * 16 + 0x2AAA) 0x55,
         Event.wr (CalculateSequenceSeg destSeg r.romSize * 16 + 0x5555) 0x90,
         Event.wr (CalculateSequenceSeg destSeg r.romSize * 16 + 0x5555) 0xF0] := by
  obtain ⟨hfl, hflw⟩ := flashRom_pure_match m (CalculateSequenceSeg destSeg r.romSize)
    destSeg r.romBlocks tlc () hds hmatch
  obtain ⟨hfl2, hflw2⟩ := flashRom_pure_match m (CalculateSequenceSeg destSeg r.romSize)
    destSeg r.romBlocks tlc
    (HaveOverlappingBioses (pureDev m)
      (DetectDeviceType (pureDev m) () (CalculateSequenceSeg destSeg r.romSize)
        destSeg).2.1
      (CalculateSequenceSeg destSeg r.romSize) destSeg r.romSize).2.1 hds hmatch
  refine ⟨hfl, hflw, ?_, ?_⟩
  · simp only [ProcessRom]
    obtain ⟨name, hname⟩ := Option.isSome_iff_exists.mp hdet
    rw [hname]
    simp only [Bool.true_eq_false, if_false]
    rw [if_pos hfl2]
  · simp only [ProcessRom]
    obtain ⟨name, hname⟩ := Option.isSome_iff_exists.mp hdet
    rw [hname]
    simp only [Bool.true_eq_false, if_false]
    rw [if_pos hfl2]
    rw [List.filter_append, List.filter_append]
    rw [detect_wr_filter]
    rw [filter_false_eq_nil ((haveOverlappingBioses_rdOnly (pureDev m) _ _ _ _).noWr)]
    rw [filter_false_eq_nil hflw2]
    simp

/-- C7 (amended): see `processRom_pure_match` — a matching device yields a
zero-block flash with no writes from `FlashRom` and the "already up to
date" success outcome; the run's only write cycles are the four
software-ID writes of device detection (so unlock cycles *are* issued
during the run, by detection — the claim's final conjunct is amended to
exclude them). -/
theorem claim7_idempotent (m : Nat → Nat) (destSeg : Nat) (r : LoadResult) (tlc : Nat)
    (hds : destSeg < 65536)
    (hmatch : ∀ k, k < r.romBlocks.length → ∀ i, i < 4096 →
      m (((destSeg + 256 * k) % 65536) * 16 + i) = (r.romBlocks.getD k zeroBlock) i)
    (hdet : (DetectDeviceType (pureDev m) ()
      (CalculateSequenceSeg destSeg r.romSize) destSeg).1.isSome = true) :
    (FlashRom (pureDev m) () (CalculateSequenceSeg destSeg r.romSize) destSeg
        r.romBlocks tlc).1 = 0 ∧
      (∀ e ∈ (FlashRom (pureDev m) () (CalculateSequenceSeg destSeg r.romSize) destSeg
        r.romBlocks tlc).2.2, e.isWr = false) ∧
      (ProcessRom (pureDev m) () destSeg r tlc true).1 = ProcOutcome.upToDate ∧
      (ProcessRom (pureDev m) () destSeg r tlc true).2.2.filter Event.isWr =
        [Event.wr (CalculateSequenceSeg destSeg r.romSize * 16 + 0x5555) 0xAA,
         Event.wr (CalculateSequenceSeg destSeg r.romSize * 16 + 0x2AAA) 0x55,
         Event.wr (CalculateSequenceSeg destSeg r.romSize * 16 + 0x5555) 0x90,
         Event.wr (CalculateSequenceSeg destSeg r.romSize * 16 + 0x5555) 0xF0] :=
  processRom_pure_match m destSeg r tlc hds hmatch hdet

/-- A two-byte file whose image begins `0xBF 0xB6` — so a pure device
laid out to match it also answers the software-ID reads with the
SST39SF020 ID. -/
def f7 : Nat → Nat := fun i => if i = 0 then 0xBF else if i = 1 then 0xB6 else 0

/-- Default `RomData` used with `Option.getD` on loader results. -/
def defLR : LoadResult := ⟨[], 0, 0, false⟩

/-- The image the loader builds from the 2048-byte file `f7`. -/
def r7 : LoadResult := (LoadRomDataFromFile 2048 f7 0).getD defLR

/-- A pure device whose destination range already equals the `r7` image:
byte 0xBF at 0xC800:0, 0xB6 at 0xC800:1, zeros elsewhere. -/
def mem7 : Nat → Nat := fun a =>
  if a = 0xC8000 then 0xBF else if a = 0xC8001 then 0xB6 else 0

lemma r7_eq : r7 = ⟨[loadBlock 2048 f7 0], 2048, 4096, true⟩ := by
  unfold r7
  rw [loadRom_noOverride 2048 f7 (by norm_num) (by norm_num)]
  norm_num [List.range']

lemma mem7_hmatch : ∀ k, k < r7.romBlocks.length → ∀ i, i < 4096 →
    mem7 (((0xC800 + 256 * k) % 65536) * 16 + i) = (r7.romBlocks.getD k zeroBlock) i := by
  rw [r7_eq]
  intro k hk i hi
  simp only [List.length_cons, List.length_nil] at hk
  have hk0 : k = 0 := by omega
  subst hk0
  simp only [List.getD_cons_zero]
  unfold mem7 loadBlock f7
  norm_num
  by_cases h0 : i = 0
  · subst h0; norm_num
  · by_cases h1 : i = 1
    · subst h1; norm_num
    · rw [if_neg (by omega), if_neg (by omega)]
      by_cases h2 : i < 2048
      · rw [if_pos h2, if_neg h0, if_neg h1]
      · rw [if_neg h2]

lemma r7_seq : CalculateSequenceSeg 0xC800 r7.romSize = 0xC800 := by
  rw [r7_eq]
  decide

lemma mem7_hdet : (DetectDeviceType (pureDev mem7) ()
    (CalculateSequenceSeg 0xC800 r7.romSize) 0xC800).1.isSome = true := by
  rw [r7_seq]
  rfl

/-- C7 witness: the idempotence theorem at the concrete matching device
`mem7` and loaded image `r7`. -/
theorem claim7_idempotent_witness :
    ((0xC800 : Nat) < 65536 ∧
      (∀ k, k < r7.romBlocks.length → ∀ i, i < 4096 →
        mem7 (((0xC800 + 256 * k) % 65536) * 16 + i) = (r7.romBlocks.getD k zeroBlock) i) ∧
      (DetectDeviceType (pureDev mem7) ()
        (CalculateSequenceSeg 0xC800 r7.romSize) 0xC800).1.isSome = true) ∧
    ((FlashRom (pureDev mem7) () (CalculateSequenceSeg 0xC800 r7.romSize) 0xC800
        r7.romBlocks 1).1 = 0 ∧
      (∀ e ∈ (FlashRom (pureDev mem7) () (CalculateSequenceSeg 0xC800 r7.romSize) 0xC800
        r7.romBlocks 1).2.2, e.isWr = false) ∧
      (ProcessRom (pureDev mem7) () 0xC800 r7 1 true).1 = ProcOutcome.upToDate ∧
      (ProcessRom (pureDev mem7) () 0xC800 r7 1 true).2.2.filter Event.isWr =
        [Event.wr (CalculateSequenceSeg 0xC800 r7.romSize * 16 + 0x5555) 0xAA,
         Event.wr (CalculateSequenceSeg 0xC800 r7.romSize * 16 + 0x2AAA) 0x55,
         Event.wr (CalculateSequenceSeg 0xC800 r7.romSize * 16 + 0x5555) 0x90,
         Event.wr (CalculateSequenceSeg 0xC800 r7.romSize * 16 + 0x5555) 0xF0]) :=
  ⟨⟨by norm_num, mem7_hmatch, mem7_hdet⟩,
    claim7_idempotent mem7 0xC800 r7 1 (by norm_num) mem7_hmatch mem7_hdet⟩

/-- C7 counterexample: in the very idempotent run of the claim — device
contents already equal to the image, run returns success with zero blocks
flashed — unlock cycles *are* issued: the software-ID entry of device
detection writes 0xAA to `S:5555` and 0x55 to `S:2AAA`, refuting "no
unlock sequences are ever issued during the run". -/
theorem claim7_counterexample :
    (∀ k, k < r7.romBlocks.length → ∀ i, i < 4096 →
      mem7 (((0xC800 + 256 * k) % 65536) * 16 + i) = (r7.romBlocks.getD k zeroBlock) i) ∧
    (ProcessRom (pureDev mem7) () 0xC800 r7 1 true).1 = ProcOutcome.upToDate ∧
    Event.wr (0xC800 * 16 + 0x5555) 0xAA ∈
      (ProcessRom (pureDev mem7) () 0xC800 r7 1 true).2.2 ∧
    Event.wr (0xC800 * 16 + 0x2AAA) 0x55 ∈
      (ProcessRom (pureDev mem7) () 0xC800 r7 1 true).2.2 := by
  obtain ⟨-, -, hout, hfil⟩ :=
    processRom_pure_match mem7 0xC800 r7 1 (by norm_num) mem7_hmatch mem7_hdet
  rw [r7_seq] at hfil
  refine ⟨mem7_hmatch, hout, ?_, ?_⟩
  · apply List.mem_of_mem_filter (p := Event.isWr)
    rw [hfil]
    simp
  · apply List.mem_of_mem_filter (p := Event.isWr)
    rw [hfil]
    simp

/-! ### Round-trip through the verify pass (claim C1) -/

/-- `n` canonical byte reads starting at index `i`: byte `j` of `bytes`
read at `base + j`. -/
def blockReadGo (base : Nat) (bytes : Nat → Nat) : Nat → Nat → List Event
  | 0, _ => []
  | n + 1, i => Event.rd (base + i) (bytes i) :: blockReadGo base bytes n (i + 1)

/-- The canonical read-back trace of one 4 KiB block: byte `i` of `bytes`
read at `base + i`. -/
def blockReadTrace (base : Nat) (bytes : Nat → Nat) : List Event :=
  blockReadGo base bytes 4096 0

/-- The canonical read-back trace of a whole verify pass: every block's
bytes in order, at the destination segments the loop visits. -/
def destReadTrace : List (Nat → Nat) → Nat → List Event
  | [], _ => []
  | b :: rest, ds =>
    blockReadTrace (ds * 16) b ++ destReadTrace rest ((ds + 256) % 65536)

lemma memcmpGo_true_trace {σ : Type} (d : Dev σ) (a : Nat) (blk : Nat → Nat) :
    ∀ (n i : Nat) (s : σ) (acc : Bool),
      (memcmpGo d a blk n i s acc).1 = true →
      acc = true ∧ (memcmpGo d a blk n i s acc).2.2 = blockReadGo a blk n i := by
  intro n
  induction n with
  | zero =>
    intro i s acc h
    exact ⟨h, rfl⟩
  | succ n ih =>
    intro i s acc h
    simp only [memcmpGo] at h ⊢
    obtain ⟨hacc, htr⟩ := ih (i + 1) (d.read s (a + i)).2
      (acc && decide ((d.read s (a + i)).1 = blk i)) h
    rw [Bool.and_eq_true] at hacc
    have hv : (d.read s (a + i)).1 = blk i := of_decide_eq_true hacc.2
    refine ⟨hacc.1, ?_⟩
    rw [htr, hv]
    rfl

lemma memcmpBlock_true_trace {σ : Type} (d : Dev σ) (s : σ) (a : Nat)
    (blk : Nat → Nat) (h : (memcmpBlock d s a blk).1 = true) :
    (memcmpBlock d s a blk).2.2 = blockReadTrace a blk := by
  unfold memcmpBlock at h ⊢
  exact (memcmpGo_true_trace d a blk 4096 0 s true h).2

/-- A verify pass that returns TRUE read back, byte for byte, exactly the
image blocks: its trace is the canonical read-back trace. -/
lemma verifyGo_true_trace {σ : Type} (d : Dev σ) :
    ∀ (blocks : List (Nat → Nat)) (ds : Nat) (s : σ),
      (verifyGo d blocks ds s).1 = true →
      (verifyGo d blocks ds s).2.2 = destReadTrace blocks ds := by
  intro blocks
  induction blocks with
  | nil => intro ds s h; rfl
  | cons b rest ih =>
    intro ds s h
    simp only [verifyGo] at h ⊢
    by_cases hc : (memcmpBlock d s (ds * 16) b).1 = true
    · rw [if_pos hc] at h ⊢
      unfold destReadTrace
      rw [memcmpBlock_true_trace d s (ds * 16) b hc]
      rw [ih ((ds + 256) % 65536) _ h]
    · rw [if_neg hc] at h
      exact absurd h (by simp)

/-- On a pure device the verify pass returns TRUE iff every byte of the
destination range equals the corresponding image byte. -/
lemma verifyGo_pure (m : Nat → Nat) :
    ∀ (blocks : List (Nat → Nat)) (ds : Nat) (s : Unit),
      ds < 65536 →
      ((verifyGo (pureDev m) blocks ds s).1 = true ↔
        ∀ k, k < blocks.length → ∀ i, i < 4096 →
          m (((ds + 256 * k) % 65536) * 16 + i) = (blocks.getD k zeroBlock) i) := by
  intro blocks
  induction blocks with
  | nil =>
    intro ds s hds
    simp [verifyGo]
  | cons b rest ih =>
    intro ds s hds
    simp only [verifyGo]
    by_cases hc : (memcmpBlock (pureDev m) s (ds * 16) b).1 = true
    · rw [if_pos hc]
      rw [ih ((ds + 256) % 65536) _ (by omega)]
      constructor
      · intro h k hk i hi
        cases k with
        | zero =>
          have := (memcmpBlock_pure m (ds * 16) b s).mp hc i hi
          simpa [Nat.mod_eq_of_lt hds] using this
        | succ k2 =>
          have := h k2 (by simpa using Nat.lt_of_succ_lt_succ hk) i hi
          have haddr : ((ds + 256) % 65536 + 256 * k2) % 65536 =
              (ds + 256 * (k2 + 1)) % 65536 := by omega
          rw [haddr] at this
          simpa using this
      · intro h k hk i hi
        have := h (k + 1) (by simp; omega) i hi
        have haddr : ((ds + 256) % 65536 + 256 * k) % 65536 =
            (ds + 256 * (k + 1)) % 65536 := by omega
        rw [haddr]
        simpa using this
    · rw [if_neg hc]
      constructor
      · intro h; exact absurd h (by simp)
      · intro h
        exfalso
        apply hc
        rw [memcmpBlock_pure]
        intro j hj
        have := h 0 (by simp) j hj
        simpa [Nat.mod_eq_of_lt hds] using this

lemma verifyGo_cons_match {σ : Type} (d : Dev σ) (b : Nat → Nat)
    (rest : List (Nat → Nat)) (ds : Nat) (s : σ)
    (hc : (memcmpBlock d s (ds * 16) b).1 = true) :
    verifyGo d (b :: rest) ds s =
      ((verifyGo d rest ((ds + 256) % 65536) (memcmpBlock d s (ds * 16) b).2.1).1,
        (verifyGo d rest ((ds + 256) % 65536) (memcmpBlock d s (ds * 16) b).2.1).2.1,
        (memcmpBlock d s (ds * 16) b).2.2 ++
          (verifyGo d rest ((ds + 256) % 65536) (memcmpBlock d s (ds * 16) b).2.1).2.2) := by
  simp only [verifyGo]
  rw [if_pos hc]

/-- A verify pass that returns TRUE read back, byte for byte, exactly the
image blocks, stated at the `VerifyRom` level. -/
lemma verifyRom_true_trace {σ : Type} (d : Dev σ) (s : σ) (blocks : List (Nat → Nat))
    (ds : Nat) (h : (VerifyRom d s ds blocks).1 = true) :
    (VerifyRom d s ds blocks).2.2 = destReadTrace blocks ds := by
  unfold VerifyRom at h ⊢
  exact verifyGo_true_trace d blocks ds s h

/-- Byte `i` of block `k` of the no-override image equals the zero-padded
file byte at offset `4096 k + i`. -/
lemma loadBlock_padded (len : Nat) (f : Nat → Nat) (k i : Nat) (hi : i < 4096) :
    loadBlock len f k i = paddedByte len f (4096 * k + i) := by
  simp only [loadBlock, paddedByte]
  by_cases h1 : i < min 4096 (len - 4096 * k)
  · rw [if_pos h1, if_pos (by omega)]
  · rw [if_neg h1, if_neg (by omega)]

lemma getD_map_range' (g : Nat → Nat → Nat) :
    ∀ (B st k : Nat), k < B →
      ((List.range' st B).map g).getD k zeroBlock = g (st + k) := by
  intro B
  induction B with
  | zero => intro st k hk; omega
  | succ B ih =>
    intro st k hk
    rw [List.range'_succ, List.map_cons]
    cases k with
    | zero => simp
    | succ k2 =>
      rw [List.getD_cons_succ, ih (st + 1) k2 (by omega),
        show st + 1 + k2 = st + (k2 + 1) from by omega]

/-- C1 (amended): for every image accepted by the loader with no size
override and every run of the workflow that ends with the success message
(`haltComplete`), the concluding verify pass read back from the device,
byte for byte, exactly the loaded image blocks — the run's trace ends with
the canonical read-back trace of the image — and those blocks are the
original file contents padded with 0x00; moreover on a memory-like (pure)
device `VerifyRom` returns TRUE iff every destination byte equals the
corresponding image byte.  (With a size override smaller than the file the
loaded blocks are *not* the original file contents — see the
counterexample.) -/
theorem claim1_roundtrip {σ : Type} (d : Dev σ) (s : σ) (destSeg len : Nat)
    (f : Nat → Nat) (r : LoadResult) (tlc : Nat)
    (hds : destSeg < 65536) (h0 : 0 < len) (h2 : len % 2048 = 0)
    (hload : LoadRomDataFromFile len f 0 = some r)
    (hrun : (ProcessRom d s destSeg r tlc true).1 = ProcOutcome.haltComplete) :
    (∃ tr0, (ProcessRom d s destSeg r tlc true).2.2 =
        tr0 ++ destReadTrace r.romBlocks destSeg) ∧
      (∀ k, k < r.romBlocks.length → ∀ i, i < 4096 →
        (r.romBlocks.getD k zeroBlock) i = paddedByte len f (4096 * k + i)) ∧
      (∀ m : Nat → Nat,
        (VerifyRom (pureDev m) () destSeg r.romBlocks).1 = true ↔
          ∀ k, k < r.romBlocks.length → ∀ i, i < 4096 →
            m (((destSeg + 256 * k) % 65536) * 16 + i) =
              (r.romBlocks.getD k zeroBlock) i) := by
  refine ⟨?_, ?_, ?_⟩
  · simp only [ProcessRom] at hrun ⊢
    rcases hdet : (DetectDeviceType d s (CalculateSequenceSeg destSeg r.romSize) destSeg).1
      with _ | name
    · rw [hdet] at hrun
      have hx : ProcOutcome.failDetect = ProcOutcome.haltComplete := hrun
      exact absurd hx (by decide)
    · rw [hdet] at hrun
      simp only [Bool.true_eq_false, if_false] at hrun ⊢
      split_ifs at hrun ⊢ with h1 h2 h3
      refine ⟨(DetectDeviceType d s (CalculateSequenceSeg destSeg r.romSize) destSeg).2.2 ++
        (HaveOverlappingBioses d (DetectDeviceType d s (CalculateSequenceSeg destSeg
          r.romSize) destSeg).2.1 (CalculateSequenceSeg destSeg r.romSize) destSeg
          r.romSize).2.2 ++
        (FlashRom d (HaveOverlappingBioses d (DetectDeviceType d s (CalculateSequenceSeg
          destSeg r.romSize) destSeg).2.1 (CalculateSequenceSeg destSeg r.romSize) destSeg
          r.romSize).2.1 (CalculateSequenceSeg destSeg r.romSize) destSeg r.romBlocks
          tlc).2.2, ?_⟩
      rw [verifyRom_true_trace d _ r.romBlocks destSeg h3]
  · have hl := loadRom_noOverride len f h0 h2
    rw [hload] at hl
    have hr := Option.some.inj hl
    have hb2 : r.romBlocks =
        (List.range' 0 (min 64 (len / 4096 + 1))).map (loadBlock len f) := by
      rw [hr]
    rw [hb2]
    intro k hk i hi
    rw [List.length_map, List.length_range'] at hk
    rw [getD_map_range' (loadBlock len f) (min 64 (len / 4096 + 1)) 0 k hk, Nat.zero_add]
    exact loadBlock_padded len f k i hi
  · intro m
    unfold VerifyRom
    exact verifyGo_pure m r.romBlocks destSeg () hds

/-! ### A scripted device for a complete, successful flash run (claim C1) -/

/-- Byte `j` of the witness image: `0xBF 0xB6 00 00 …` — chosen so that a
device programmed with it also answers the software-ID reads with the
SST39SF020 ID pair. -/
def scriptByte : Nat → Nat :=
  fun j => if j = 0 then 0xBF else if j = 1 then 0xB6 else 0

/-- The value answered by the `c`-th read of the scripted flash device:
four vendor-ID reads then one device-ID read during detection, zeros for
the 26 overlap-scan reads and the 4096 reads of the (mismatching) initial
block contents, 0xFF for the erase-completion poll, then the programmed
byte for each of the 4096 program polls and the 4096 verify reads. -/
def script : Nat → Nat := fun c =>
  if c < 4 then 0xBF
  else if c = 4 then 0xB6
  else if c < 4127 then 0
  else if c = 4127 then 0xFF
  else if c < 8224 then scriptByte (c - 4128)
  else scriptByte (c - 8224)

/-- A stateful device scripted for one complete erase/program/verify run:
the state counts the reads issued so far; writes are absorbed. -/
def scriptDev : Dev Nat := ⟨fun s _ => (script s, s + 1), fun s _ _ => s⟩

lemma script_read (c x : Nat) : scriptDev.read c x = (script c, c + 1) := rfl

lemma script_write (c a v : Nat) : scriptDev.write c a v = c := rfl

lemma memcmpGo_script_state (a : Nat) (blk : Nat → Nat) :
    ∀ (n i c : Nat) (acc : Bool),
      (memcmpGo scriptDev a blk n i c acc).2.1 = c + n := by
  intro n
  induction n with
  | zero => intro i c acc; rfl
  | succ n ih =>
    intro i c acc
    simp only [memcmpGo, script_read]
    rw [ih]
    omega

lemma memcmpGo_script_fst (a : Nat) (blk : Nat → Nat) :
    ∀ (n i c : Nat) (acc : Bool),
      (memcmpGo scriptDev a blk n i c acc).1 =
        (acc && decide (∀ j, j < n → script (c + j) = blk (i + j))) := by
  intro n
  induction n with
  | zero =>
    intro i c acc
    simp [memcmpGo]
  | succ n ih =>
    intro i c acc
    simp only [memcmpGo, script_read]
    rw [ih]
    cases acc with
    | false => simp
    | true =>
      simp only [Bool.true_and]
      by_cases h1 : script c = blk i
      · rw [decide_eq_true h1, Bool.true_and]
        refine decide_eq_decide.mpr ?_
        constructor
        · intro hr j hj
          cases j with
          | zero => simpa using h1
          | succ j2 =>
            have hh := hr j2 (by omega)
            rw [show c + (j2 + 1) = c + 1 + j2 from by omega,
                show i + (j2 + 1) = i + 1 + j2 from by omega]
            exact hh
        · intro hh j hj
          have hh2 := hh (j + 1) (by omega)
          rw [show c + 1 + j = c + (j + 1) from by omega,
              show i + 1 + j = i + (j + 1) from by omega]
          exact hh2
      · rw [decide_eq_false h1, Bool.false_and]
        exact (decide_eq_false fun hall => h1 (by simpa using hall 0 (by omega))).symm

lemma memcmpBlock_script_state (a : Nat) (blk : Nat → Nat) (c : Nat) :
    (memcmpBlock scriptDev c a blk).2.1 = c + 4096 := by
  unfold memcmpBlock
  exact memcmpGo_script_state a blk 4096 0 c true

lemma memcmpBlock_script_iff (a : Nat) (blk : Nat → Nat) (c : Nat) :
    (memcmpBlock scriptDev c a blk).1 = true ↔
      ∀ j, j < 4096 → script (c + j) = blk j := by
  unfold memcmpBlock
  rw [memcmpGo_script_fst a blk 4096 0 c true, Bool.true_and, decide_eq_true_eq]
  constructor
  · intro hP j hj
    have := hP j hj
    rwa [Nat.zero_add] at this
  · intro hQ j hj
    rw [Nat.zero_add]
    exact hQ j hj

lemma memcmpBlock_script_false (a : Nat) (blk : Nat → Nat) (c : Nat)
    (hc : script c ≠ blk 0) :
    (memcmpBlock scriptDev c a blk).1 = false := by
  rw [Bool.eq_false_iff]
  intro ht
  exact hc (by simpa using (memcmpBlock_script_iff a blk c).mp ht 0 (by omega))

lemma memcmpBlock_script_true (a : Nat) (blk : Nat → Nat) (c : Nat)
    (hmatch : ∀ j, j < 4096 → script (c + j) = blk j) :
    (memcmpBlock scriptDev c a blk).1 = true :=
  (memcmpBlock_script_iff a blk c).mpr hmatch

lemma waitGo_step {σ : Type} (d : Dev σ) (addr value n : Nat) (s : σ) :
    waitGo d addr value (n + 1) s =
      (let p := d.read s addr
       if p.1 = value then (true, p.2, [Event.rd addr p.1])
       else
         let q := waitGo d addr value n p.2
         (q.1, q.2.1, Event.rd addr p.1 :: q.2.2)) := rfl

lemma waitForValue_script_hit (addr value c : Nat) (h : script c = value) :
    (WaitForValue scriptDev c addr value 1).1 = true ∧
    (WaitForValue scriptDev c addr value 1).2.1 = c + 1 := by
  unfold WaitForValue
  have h1 : wfvIterations 1 = 0 + 1 := by decide
  rw [h1, waitGo_step]
  simp only [script_read]
  rw [if_pos h]
  exact ⟨rfl, rfl⟩

lemma eraseWait_step {σ : Type} (d : Dev σ) (destAddr tlc n : Nat) (s : σ) :
    eraseWait d destAddr tlc (n + 1) s =
      (let p := WaitForValue d s destAddr 0xFF tlc
       if p.1 then (true, p.2.1, p.2.2)
       else
         let q := eraseWait d destAddr tlc n p.2.1
         (q.1, q.2.1, p.2.2 ++ q.2.2)) := rfl

lemma eraseBlock_script (seqSeg destAddr c : Nat) (h : script c = 0xFF) :
    (EraseBlock scriptDev c seqSeg destAddr 1).1 = true ∧
    (EraseBlock scriptDev c seqSeg destAddr 1).2.1 = c + 1 := by
  obtain ⟨hw1, hw2⟩ := waitForValue_script_hit destAddr 0xFF c h
  unfold EraseBlock
  simp only [script_write]
  rw [show (1163 : Nat) = 1162 + 1 from rfl, eraseWait_step]
  refine ⟨?_, ?_⟩ <;> simp [hw1, hw2]

lemma programGo_script (seqSeg destAddr : Nat) (src : Nat → Nat) :
    ∀ (n i c : Nat), (∀ j, j < n → script (c + j) = src (i + j)) →
      (programGo scriptDev seqSeg destAddr src 1 n i c).1 = true ∧
      (programGo scriptDev seqSeg destAddr src 1 n i c).2.1 = c + n := by
  intro n
  induction n with
  | zero => intro i c h; exact ⟨rfl, rfl⟩
  | succ n ih =>
    intro i c h
    have h0 : script c = src i := by simpa using h 0 (by omega)
    obtain ⟨hw1, hw2⟩ := waitForValue_script_hit (destAddr + i) (src i) c h0
    simp only [programGo, script_write]
    rw [if_pos hw1, hw2]
    obtain ⟨ih1, ih2⟩ := ih (i + 1) (c + 1) (fun j hj => by
      have hh := h (j + 1) (by omega)
      rw [show c + 1 + j = c + (j + 1) from by omega,
          show i + 1 + j = i + (j + 1) from by omega]
      exact hh)
    refine ⟨ih1, ?_⟩
    show (programGo scriptDev seqSeg destAddr src 1 n (i + 1) (c + 1)).2.1 = c + (n + 1)
    rw [ih2]
    omega

lemma flashRom_result_some {σ : Type} (d : Dev σ) (s : σ) (seqSeg destSeg : Nat)
    (blocks : List (Nat → Nat)) (tlc : Nat) (n : Nat)
    (h : (flashGo d seqSeg tlc blocks destSeg 0 s).1 = some n) :
    (FlashRom d s seqSeg destSeg blocks tlc).1 = (n : Int) ∧
    (FlashRom d s seqSeg destSeg blocks tlc).2.1 =
      (flashGo d seqSeg tlc blocks destSeg 0 s).2.1 := by
  simp only [FlashRom]
  split
  next heq => rw [h] at heq; cases heq
  next n2 heq =>
    rw [h] at heq
    have h3 : n = n2 := Option.some.inj heq
    subst h3
    exact ⟨rfl, rfl⟩

/-- A scripted run at destination segment 0xC800 with a one-block 4 KiB
image whose bytes are `scriptByte` ends in the "Flash written and
verified" halt: detect succeeds, the block compares unequal, the erase
poll answers 0xFF at once, every program poll and every verify read
answers the programmed byte. -/
lemma processRom_script_generic (r : LoadResult) (b : Nat → Nat)
    (hb : r.romBlocks = [b]) (hsize : r.romSize = 4096)
    (hbb : ∀ j, j < 4096 → scriptByte j = b j) :
    (ProcessRom scriptDev 0 0xC800 r 1 true).1 = ProcOutcome.haltComplete := by
  have hseq : CalculateSequenceSeg 0xC800 4096 = 0xC800 := by decide
  have hdet1 : (DetectDeviceType scriptDev 0 0xC800 0xC800).1 = some "SST39SF020" := by rfl
  have hdet2 : (DetectDeviceType scriptDev 0 0xC800 0xC800).2.1 = 5 := by rfl
  have hov : (HaveOverlappingBioses scriptDev 5 0xC800 0xC800 4096).2.1 = 31 := by decide
  have hmc : (memcmpBlock scriptDev 31 (0xC800 * 16) b).1 = false :=
    memcmpBlock_script_false _ b 31 (by
      rw [← hbb 0 (by omega)]
      decide)
  have hmcs : (memcmpBlock scriptDev 31 (0xC800 * 16) b).2.1 = 4127 := by
    rw [memcmpBlock_script_state]
  have her := eraseBlock_script 0xC800 (0xC800 * 16) 4127 (by decide)
  obtain ⟨hp1, hp2⟩ := programGo_script 0xC800 (0xC800 * 16) b 4096 0 4128 (fun j hj => by
    rw [Nat.zero_add, ← hbb j hj]
    unfold script
    rw [if_neg (by omega), if_neg (by omega), if_neg (by omega), if_neg (by omega),
      if_pos (by omega), show 4128 + j - 4128 = j from by omega])
  have hpb1 : (ProgramBlock scriptDev 4128 0xC800 b (0xC800 * 16) 1).1 = true := by
    unfold ProgramBlock
    exact hp1
  have hpb2 : (ProgramBlock scriptDev 4128 0xC800 b (0xC800 * 16) 1).2.1 = 8224 := by
    unfold ProgramBlock
    rw [hp2]
  have hflash := flashGo_cons_success scriptDev 0xC800 1 b [] 0xC800 0 31
    (by rw [hmc]; exact Bool.false_ne_true)
    (by rw [hmcs]; exact her.1)
    (by rw [hmcs, her.2]; exact hpb1)
  have hnil : ∀ (ds acc s2 : Nat), (flashGo scriptDev 0xC800 1 [] ds acc s2).2.1 = s2 :=
    fun _ _ _ => rfl
  have hnilFst : ∀ (ds acc s2 : Nat), (flashGo scriptDev 0xC800 1 [] ds acc s2).1 = some acc :=
    fun _ _ _ => rfl
  have hfg1 : (flashGo scriptDev 0xC800 1 [b] 0xC800 0 31).1 = some 1 := by
    rw [hflash, hnilFst]
  have hfg2 : (flashGo scriptDev 0xC800 1 [b] 0xC800 0 31).2.1 = 8224 := by
    rw [hflash, hnil, hmcs, her.2, hpb2]
  obtain ⟨hFR1, hFR2p⟩ := flashRom_result_some scriptDev 31 0xC800 0xC800 [b] 1 1 hfg1
  have hFR2 : (FlashRom scriptDev 31 0xC800 0xC800 [b] 1).2.1 = 8224 := by
    rw [hFR2p]
    exact hfg2
  have hmcv : (memcmpBlock scriptDev 8224 (0xC800 * 16) b).1 = true :=
    memcmpBlock_script_true _ b 8224 (fun j hj => by
      rw [← hbb j hj]
      unfold script
      rw [if_neg (by omega), if_neg (by omega), if_neg (by omega), if_neg (by omega),
        if_neg (by omega), show 8224 + j - 8224 = j from by omega])
  have hver : (VerifyRom scriptDev 8224 0xC800 [b]).1 = true := by
    unfold VerifyRom
    rw [verifyGo_cons_match scriptDev b [] 0xC800 8224 hmcv]
    rfl
  simp only [ProcessRom, hb, hsize, hseq]
  rw [hdet1]
  simp only [Bool.true_eq_false, if_false]
  rw [hdet2, hov]
  have hc1 : ¬ ((FlashRom scriptDev 31 0xC800 0xC800 [b] 1).1 = 0) := by
    rw [hFR1]
    decide
  have hc2 : ¬ ((FlashRom scriptDev 31 0xC800 0xC800 [b] 1).1 < 0) := by
    rw [hFR1]
    decide
  rw [if_neg hc1, if_neg hc2, hFR2, if_pos hver]

lemma scriptByte_eq_load : ∀ j, j < 4096 → scriptByte j = loadBlock 2048 f7 0 j := by
  intro j hj
  by_cases h0 : j = 0
  · subst h0; decide
  · by_cases h1 : j = 1
    · subst h1; decide
    · simp only [scriptByte, loadBlock, f7]
      rw [if_neg h0, if_neg h1]
      by_cases h2 : j < min 4096 (2048 - 4096 * 0)
      · rw [if_pos h2, if_neg (show ¬ (4096 * 0 + j = 0) from by omega),
          if_neg (show ¬ (4096 * 0 + j = 1) from by omega)]
      · rw [if_neg h2]

lemma load7 : LoadRomDataFromFile 2048 f7 0 = some r7 := by
  rw [loadRom_noOverride 2048 f7 (by norm_num) (by norm_num), r7_eq]
  norm_num [List.range']

lemma run7 : (ProcessRom scriptDev 0 0xC800 r7 1 true).1 = ProcOutcome.haltComplete :=
  processRom_script_generic r7 (loadBlock 2048 f7 0) (by rw [r7_eq]) (by rw [r7_eq])
    scriptByte_eq_load

/-- C1 witness: the round-trip theorem at the scripted device, the 2 KiB
file `f7` and its loaded image `r7`, flashed to segment 0xC800. -/
theorem claim1_roundtrip_witness :
    ((0xC800 : Nat) < 65536 ∧ (0 : Nat) < 2048 ∧ (2048 : Nat) % 2048 = 0 ∧
      LoadRomDataFromFile 2048 f7 0 = some r7 ∧
      (ProcessRom scriptDev 0 0xC800 r7 1 true).1 = ProcOutcome.haltComplete) ∧
    ((∃ tr0, (ProcessRom scriptDev 0 0xC800 r7 1 true).2.2 =
        tr0 ++ destReadTrace r7.romBlocks 0xC800) ∧
      (∀ k, k < r7.romBlocks.length → ∀ i, i < 4096 →
        (r7.romBlocks.getD k zeroBlock) i = paddedByte 2048 f7 (4096 * k + i)) ∧
      (∀ m : Nat → Nat,
        (VerifyRom (pureDev m) () 0xC800 r7.romBlocks).1 = true ↔
          ∀ k, k < r7.romBlocks.length → ∀ i, i < 4096 →
            m (((0xC800 + 256 * k) % 65536) * 16 + i) =
              (r7.romBlocks.getD k zeroBlock) i)) :=
  ⟨⟨by norm_num, by norm_num, by norm_num, load7, run7⟩,
    claim1_roundtrip scriptDev 0 0xC800 2048 f7 r7 1 (by norm_num) (by norm_num)
      (by norm_num) load7 run7⟩

/-- A 4 KiB file whose byte at offset 2048 is 7 (and whose head carries the
SST39SF020 ID bytes, like `f7`). -/
def f4 : Nat → Nat :=
  fun i => if i = 0 then 0xBF else if i = 1 then 0xB6 else if i = 2048 then 7 else 0

/-- The single block the loader builds from `f4` under a 2 KiB size
override: only the first 2048 bytes of the file are read, the rest of the
block stays zero. -/
def b4 : Nat → Nat :=
  fun i => if i < min (min 2048 4096) (4096 - 0) then f4 (0 + i) else 0

/-- The image the loader builds from the 4096-byte file `f4` with the
`-size 2` (2 KiB) override. -/
def r4 : LoadResult := (LoadRomDataFromFile 4096 f4 2).getD defLR

lemma r4_eq : r4 = ⟨[b4], 2048, 4096, true⟩ := rfl

lemma scriptByte_eq_b4 : ∀ j, j < 4096 → scriptByte j = b4 j := by
  intro j hj
  by_cases h0 : j = 0
  · subst h0; decide
  · by_cases h1 : j = 1
    · subst h1; decide
    · simp only [scriptByte, b4, f4]
      rw [if_neg h0, if_neg h1]
      by_cases h2 : j < min (min 2048 4096) (4096 - 0)
      · rw [if_pos h2, if_neg (show ¬ (0 + j = 0) from by omega),
          if_neg (show ¬ (0 + j = 1) from by omega),
          if_neg (show ¬ (0 + j = 2048) from by omega)]
      · rw [if_neg h2]

/-- C1 counterexample: the loader *accepts* the 4096-byte file `f4` with a
2 KiB size override, truncating it silently, and a complete scripted run
ends with the success message — yet byte 2048 of the (single) programmed
block is 0 while byte 2048 of the original file, which lies inside the
programmed 4 KiB, is 7: after the successful flash+verify the device does
*not* hold the original file contents padded with 0x00. -/
theorem claim1_counterexample :
    (LoadRomDataFromFile 4096 f4 2).isSome = true ∧
    r4.romBlocks.length = 1 ∧
    (ProcessRom scriptDev 0 0xC800 r4 1 true).1 = ProcOutcome.haltComplete ∧
    (r4.romBlocks.getD 0 zeroBlock) 2048 = 0 ∧
    paddedByte 4096 f4 2048 = 7 := by
  refine ⟨by rfl, by rw [r4_eq]; rfl, ?_, ?_, by decide⟩
  · exact processRom_script_generic r4 b4 (by rw [r4_eq]) (by rw [r4_eq]) scriptByte_eq_b4
  · rw [r4_eq]
    decide

end SSTFlash
